import Mathlib

/-!
Verification of the geometric layout engine in
`figure_comp/coordinate_tracking.py` (classes `Pos` and `PosArray`).

The embedding models the geometry fields of a `Pos` (`x`, `y`, `dx`, `dy`)
over `ℚ`, and the `Pos`/`PosArray` polymorphism as a tree: a `Pos` leaf or a
`PosArray` node holding an ordered list of children.  Operations that can
raise in Python (`min`/`max` of an empty sequence, division by zero) return
`Option`; in-place mutation becomes explicit state passing, and
`PosArray.rescale`'s leaf-by-leaf mutation loop (which re-reads `self.x_min`
from the partially updated tree at every leaf) is modelled by a fold that
re-reads the bounds of the partially rewritten tree at each step.
-/

namespace FigureComp

/-- The geometry fields of a `Pos`: position `x, y` and size `dx, dy`. -/
structure Leaf where
  x : ℚ
  y : ℚ
  dx : ℚ
  dy : ℚ
  deriving Repr, DecidableEq

/-- A `Pos` leaf or a `PosArray` node with its ordered children. -/
inductive PTree where
  | pos (l : Leaf)
  | node (arr : List PTree)
  deriving Repr

mutual

def PTree.beq : PTree → PTree → Bool
  | .pos l, .pos l' => l = l'
  | .node a, .node b => beqList a b
  | _, _ => false

def beqList : List PTree → List PTree → Bool
  | [], [] => true
  | t :: ts, u :: us => PTree.beq t u && beqList ts us
  | _, _ => false

end

mutual

theorem PTree.beq_iff : ∀ t u : PTree, PTree.beq t u = true ↔ t = u
  | .pos l, .pos l' => by simp [PTree.beq]
  | .pos _, .node _ => by simp [PTree.beq]
  | .node _, .pos _ => by simp [PTree.beq]
  | .node a, .node b => by simp [PTree.beq, beqList_iff a b]

theorem beqList_iff : ∀ a b : List PTree, beqList a b = true ↔ a = b
  | [], [] => by simp [beqList]
  | [], _ :: _ => by simp [beqList]
  | _ :: _, [] => by simp [beqList]
  | t :: ts, u :: us => by
      simp [beqList, PTree.beq_iff t u, beqList_iff ts us]

end

instance : DecidableEq PTree := fun t u =>
  decidable_of_iff (PTree.beq t u = true) (PTree.beq_iff t u)

namespace Pos

/-- `Pos.__init__` for a path that does not resolve to a file: the geometry
fields are stored as given (`__init__` itself performs no validation), but
it then constructs `ImageBlank(path, dx, dy)`, whose blank pixel buffer
`np.ones((dy, dx, 4))` raises numpy's "negative dimensions are not allowed"
`ValueError` when `dx` or `dy` is negative (`none` here); a zero size is
accepted.  Sizes are the source's integral pixel sizes. -/
def init (dx dy x y : ℚ) : Option Leaf :=
  if dx < 0 ∨ dy < 0 then none
  else some { x := x, y := y, dx := dx, dy := dy }

/-- The body of `Pos.__post_init__`: `none` models the `ValueError`
"Pos figure widths must be positive".  `Pos` is a plain class, not a
dataclass, so `__init__` never invokes this check. -/
def post_init (dx dy : ℚ) : Option Unit :=
  if dx < 0 ∨ dy < 0 then none else some ()

end Pos

/-- `PosArray.__init__`: `self.arr = arr if arr is not None else []`.
No emptiness check is performed. -/
def PosArray.init (arr : Option (List PTree)) : PTree :=
  .node (arr.getD [])

mutual

/-- The `Pos` leaves of a tree, in depth-first left-to-right order (the
order every loop in the source visits them). -/
def PTree.leaves : PTree → List Leaf
  | .pos l => [l]
  | .node arr => leavesList arr

def leavesList : List PTree → List Leaf
  | [] => []
  | t :: ts => PTree.leaves t ++ leavesList ts

end

mutual

/-- Apply a function to every leaf, keeping the tree structure. -/
def PTree.mapLeaves (g : Leaf → Leaf) : PTree → PTree
  | .pos l => .pos (g l)
  | .node arr => .node (mapLeavesList g arr)

def mapLeavesList (g : Leaf → Leaf) : List PTree → List PTree
  | [] => []
  | t :: ts => PTree.mapLeaves g t :: mapLeavesList g ts

end

mutual

/-- The recursive bound computations shared by `x_min`/`x_max`/`y_min`/
`y_max`: a `Pos` reports `f` of its own fields, a `PosArray` combines its
children with `op` (`min`/`max` over a generator in the source, which
raises on an empty array — modelled by `none`). -/
def PTree.foldBy (op : ℚ → ℚ → ℚ) (f : Leaf → ℚ) : PTree → Option ℚ
  | .pos l => some (f l)
  | .node arr => foldByList op f arr

def foldByList (op : ℚ → ℚ → ℚ) (f : Leaf → ℚ) : List PTree → Option ℚ
  | [] => none
  | [t] => PTree.foldBy op f t
  | t :: ts => do
      let a ← PTree.foldBy op f t
      let b ← foldByList op f ts
      some (op a b)

end

/-- `x_min`: a `Pos` returns `self.x`; a `PosArray` the minimum over its
children's `x_min`. -/
def PTree.x_min (t : PTree) : Option ℚ := t.foldBy min (fun l => l.x)

/-- `x_max`: a `Pos` returns `self.x + self.dx`; a `PosArray` the maximum
over its children's `x_max`. -/
def PTree.x_max (t : PTree) : Option ℚ := t.foldBy max (fun l => l.x + l.dx)

/-- `y_min`: a `Pos` returns `self.y`; a `PosArray` the minimum over its
children's `y_min`. -/
def PTree.y_min (t : PTree) : Option ℚ := t.foldBy min (fun l => l.y)

/-- `y_max`: a `Pos` returns `self.y + self.dy`; a `PosArray` the maximum
over its children's `y_max`. -/
def PTree.y_max (t : PTree) : Option ℚ := t.foldBy max (fun l => l.y + l.dy)

/-- `x_range = self.x_max - self.x_min`. -/
def PTree.x_range (t : PTree) : Option ℚ := do
  let a ← t.x_max
  let b ← t.x_min
  some (a - b)

/-- `y_range = self.y_max - self.y_min`. -/
def PTree.y_range (t : PTree) : Option ℚ := do
  let a ← t.y_max
  let b ← t.y_min
  some (a - b)

/-- `shift_x`: add `x_move` to every leaf's `x` (a `PosArray` forwards the
shift to every child). -/
def PTree.shift_x (x_move : ℚ) (t : PTree) : PTree :=
  t.mapLeaves (fun l => { l with x := l.x + x_move })

/-- `shift_y`: add `y_move` to every leaf's `y`. -/
def PTree.shift_y (y_move : ℚ) (t : PTree) : PTree :=
  t.mapLeaves (fun l => { l with y := l.y + y_move })

mutual

/-- Every `PosArray` in the tree has at least one child; exactly when this
holds do all four bound computations succeed. -/
def PTree.goodShape : PTree → Bool
  | .pos _ => true
  | .node arr => !arr.isEmpty && goodShapeList arr

def goodShapeList : List PTree → Bool
  | [] => true
  | t :: ts => PTree.goodShape t && goodShapeList ts

end

mutual

/-- Rebuild a tree from a replacement list of leaves (taken in depth-first
order), returning the rebuilt tree and the unconsumed leaves.  This is the
state-passing counterpart of the source's in-place leaf mutation. -/
def setL : PTree → List Leaf → PTree × List Leaf
  | .pos _, l :: ls => (.pos l, ls)
  | .pos l, [] => (.pos l, [])
  | .node arr, ls =>
      let p := setLList arr ls
      (.node p.1, p.2)

def setLList : List PTree → List Leaf → List PTree × List Leaf
  | [], ls => ([], ls)
  | t :: ts, ls =>
      let p := setL t ls
      let q := setLList ts p.2
      (p.1 :: q.1, q.2)

end

/-- Replace the leaves of `t` (depth-first order) by `ls`. -/
def PTree.setLeaves (t : PTree) (ls : List Leaf) : PTree := (setL t ls).1

/-- One pass of `PosArray.rescale`'s inner loop.  The loop walks the leaves
in depth-first order; for each leaf it re-reads `self.x_min` / `self.y_min`
from the *current* (partially mutated) tree, repositions the leaf about that
minimum, and multiplies its size by `scale`.  `t` is the tree being mutated,
`done` the leaves already rewritten, `rest` the leaves still to process. -/
def rescaleLoop (scale : ℚ) (t : PTree) : List Leaf → List Leaf → Option (List Leaf)
  | done, [] => some done
  | done, l :: rest =>
      match (t.setLeaves (done ++ l :: rest)).x_min,
            (t.setLeaves (done ++ l :: rest)).y_min with
      | some xm, some ym =>
          rescaleLoop scale t
            (done ++ [{ x := xm + (l.x - xm) * scale,
                        y := ym + (l.y - ym) * scale,
                        dx := l.dx * scale, dy := l.dy * scale }]) rest
      | _, _ => none

/-- `rescale`: on a `Pos`, multiply `dx`/`dy` by `scale` (the starting point
is unaffected); on a `PosArray`, run the leaf-by-leaf repositioning loop. -/
def PTree.rescale (scale : ℚ) : PTree → Option PTree
  | .pos l => some (.pos { l with dx := l.dx * scale, dy := l.dy * scale })
  | .node arr =>
      (rescaleLoop scale (.node arr) [] (PTree.leaves (.node arr))).map
        (fun ls => PTree.setLeaves (.node arr) ls)

/-- `append`: a `Pos` wraps both operands into a new `PosArray`.
`PosArray.append`'s first branch `isinstance(other, Pos)` also catches
`PosArray` operands (`PosArray` subclasses `Pos`), so a `PosArray` appends
*any* operand — leaf or array — as a single trailing child; the
`elif isinstance(other, PosArray)` splice branch is dead code. -/
def PTree.append (self other : PTree) : PTree :=
  match self with
  | .pos l => .node [.pos l, other]
  | .node arr => .node (arr ++ [other])

/-- `stack_right`: compute `x_offset = self.x_max - other.x_min` from the
unscaled coordinates, then `scale_factor = self.y_range / other.y_range`
(a `ZeroDivisionError`, modelled `none`, when `other.y_range == 0`), then
shift `other` right, rescale it, and append. -/
def PTree.stack_right (self other : PTree) : Option PTree := do
  let sxmax ← self.x_max
  let oxmin ← other.x_min
  let x_offset := sxmax - oxmin
  let syr ← self.y_range
  let oyr ← other.y_range
  if oyr = 0 then none
  else do
    let scale_factor := syr / oyr
    let other' ← (other.shift_x x_offset).rescale scale_factor
    some (self.append other')

/-- `stack_below`: as `stack_right`, with the roles of the axes swapped. -/
def PTree.stack_below (self other : PTree) : Option PTree := do
  let symax ← self.y_max
  let oymin ← other.y_min
  let y_offset := symax - oymin
  let sxr ← self.x_range
  let oxr ← other.x_range
  if oxr = 0 then none
  else do
    let scale_factor := sxr / oxr
    let other' ← (other.shift_y y_offset).rescale scale_factor
    some (self.append other')

/-- Python's `int()` on a float: truncation toward zero. -/
def int_trunc (q : ℚ) : ℤ :=
  if 0 ≤ q then ⌊q⌋ else ⌈q⌉

/-- The per-value step of `_normalise_values`:
`setattr(p, attr, int(getattr(p, attr) + 0.5))`. -/
def normalise_val (v : ℚ) : ℚ := ((int_trunc (v + 1/2) : ℤ) : ℚ)

/-- `_normalise_values`: one full-tree pass per attribute, in the source's
order `x`, `y`, `dx`, `dy`. -/
def PTree.normalise_values (t : PTree) : PTree :=
  ((((t.mapLeaves (fun l => { l with x := normalise_val l.x })).mapLeaves
      (fun l => { l with y := normalise_val l.y })).mapLeaves
      (fun l => { l with dx := normalise_val l.dx })).mapLeaves
      (fun l => { l with dy := normalise_val l.dy }))

/-- `set_width`: rescale so the final image has the given width
(`ZeroDivisionError`, modelled `none`, when the current width is zero). -/
def PTree.set_width (new_width : ℚ) (t : PTree) : Option PTree := do
  let current_width ← t.x_range
  if current_width = 0 then none
  else t.rescale (new_width / current_width)

/-- Outcome of `populate`: either the `ValueError` for a non-zero starting
position (raised before any image data is written, and carrying the
already-mutated tree), or a successful rasterization (`io.imsave` reached).
-/
inductive PopResult where
  | originError (state : PTree)
  | ok (state : PTree)
  deriving Repr, DecidableEq

/-- `populate`: apply `set_width` when a `final_width` is given, then
`_normalise_values`, and only then check that the array starts at `(0, 0)`;
on failure raise (no image written), otherwise rasterize and save. -/
def PTree.populate (final_width : Option ℚ) (t : PTree) : Option PopResult := do
  let t1 ← match final_width with
    | some w => t.set_width w
    | none => some t
  let t2 := t1.normalise_values
  let xm ← t2.x_min
  let ym ← t2.y_min
  if xm ≠ 0 ∨ ym ≠ 0 then some (.originError t2)
  else some (.ok t2)

/-- Modelled from the spec: "round every Region's `x, y, width, height` to
the nearest integer (round-half-up)".  This is the specification-side
rounding, to be compared with the code's `normalise_val`. -/
def round_half_up (v : ℚ) : ℤ := ⌊v + 1/2⌋

/-- The affine reposition-and-resize a positive-factor `rescale` applies to
every leaf: offsets from `(x0, y0)` scale by `f`, sizes scale by `f`. -/
def scale_about (x0 y0 f : ℚ) (l : Leaf) : Leaf :=
  { x := x0 + (l.x - x0) * f,
    y := y0 + (l.y - y0) * f,
    dx := l.dx * f,
    dy := l.dy * f }

/-- `s` is a subtree of `t`: reflexively, or inside a child of a node. -/
inductive IsSubtree : PTree → PTree → Prop
  | refl (t : PTree) : IsSubtree t t
  | child {s t : PTree} {arr : List PTree} :
      t ∈ arr → IsSubtree s t → IsSubtree s (.node arr)

/-- All leaves have positive width and height (the spec's Region
invariant). -/
def PTree.posExtents (t : PTree) : Prop :=
  ∀ l ∈ t.leaves, 0 < l.dx ∧ 0 < l.dy

instance (t : PTree) : Decidable t.posExtents := by
  unfold PTree.posExtents; infer_instance

/-! ### Folds over lists of rationals

`min()`/`max()` over a nonempty Python sequence is a left fold over the
tail, starting from the head; `listOp` packages the empty-sequence
`ValueError` as `none`. -/

def listOp (op : ℚ → ℚ → ℚ) : List ℚ → Option ℚ
  | [] => none
  | a :: l => some (l.foldl op a)

theorem foldl_assoc_op (op : ℚ → ℚ → ℚ)
    (hop : ∀ a b c, op (op a b) c = op a (op b c)) (x : ℚ) :
    ∀ (l : List ℚ) (a : ℚ), List.foldl op (op x a) l = op x (List.foldl op a l)
  | [], _ => rfl
  | c :: l, a => by
      rw [List.foldl_cons, List.foldl_cons, hop, foldl_assoc_op op hop x l (op a c)]

theorem listOp_append (op : ℚ → ℚ → ℚ)
    (hop : ∀ a b c, op (op a b) c = op a (op b c)) {l1 l2 : List ℚ} {v1 v2 : ℚ}
    (h1 : listOp op l1 = some v1) (h2 : listOp op l2 = some v2) :
    listOp op (l1 ++ l2) = some (op v1 v2) := by
  cases l1 with
  | nil => simp [listOp] at h1
  | cons a l1 =>
    cases l2 with
    | nil => simp [listOp] at h2
    | cons b l2 =>
      simp only [listOp, Option.some.injEq] at h1 h2
      simp only [List.cons_append, listOp, List.foldl_append, List.foldl_cons,
        Option.some.injEq]
      rw [h1, foldl_assoc_op op hop v1 l2 b, h2]

theorem foldl_min_le : ∀ (l : List ℚ) (a x : ℚ), x ∈ a :: l → List.foldl min a l ≤ x := by
  intro l
  induction l with
  | nil =>
      intro a x hx
      simp at hx
      simp [hx]
  | cons b l ih =>
      intro a x hx
      rw [List.foldl_cons]
      rcases List.mem_cons.mp hx with h | h
      · subst h
        exact le_trans (ih _ _ (List.mem_cons_self _ _)) (min_le_left _ _)
      rcases List.mem_cons.mp h with h | h
      · subst h
        exact le_trans (ih _ _ (List.mem_cons_self _ _)) (min_le_right _ _)
      · exact ih _ _ (List.mem_cons_of_mem _ h)

theorem foldl_min_mem : ∀ (l : List ℚ) (a : ℚ), List.foldl min a l ∈ a :: l := by
  intro l
  induction l with
  | nil => intro a; simp
  | cons b l ih =>
      intro a
      rw [List.foldl_cons]
      rcases List.mem_cons.mp (ih (min a b)) with h | h
      · rcases min_choice a b with h' | h' <;> rw [h] <;> rw [h'] <;> simp
      · exact List.mem_cons_of_mem _ (List.mem_cons_of_mem _ h)

theorem foldl_min_eq_self : ∀ (l : List ℚ) (a : ℚ), (∀ x ∈ l, a ≤ x) →
    List.foldl min a l = a := by
  intro l
  induction l with
  | nil => intro a _; rfl
  | cons b l ih =>
      intro a h
      rw [List.foldl_cons, min_eq_left (h b (List.mem_cons_self _ _))]
      exact ih a (fun x hx => h x (List.mem_cons_of_mem _ hx))

theorem foldl_max_le : ∀ (l : List ℚ) (a x : ℚ), x ∈ a :: l → x ≤ List.foldl max a l := by
  intro l
  induction l with
  | nil =>
      intro a x hx
      simp at hx
      simp [hx]
  | cons b l ih =>
      intro a x hx
      rw [List.foldl_cons]
      rcases List.mem_cons.mp hx with h | h
      · subst h
        exact le_trans (le_max_left _ _) (ih _ _ (List.mem_cons_self _ _))
      rcases List.mem_cons.mp h with h | h
      · subst h
        exact le_trans (le_max_right _ _) (ih _ _ (List.mem_cons_self _ _))
      · exact ih _ _ (List.mem_cons_of_mem _ h)

theorem foldl_max_mem : ∀ (l : List ℚ) (a : ℚ), List.foldl max a l ∈ a :: l := by
  intro l
  induction l with
  | nil => intro a; simp
  | cons b l ih =>
      intro a
      rw [List.foldl_cons]
      rcases List.mem_cons.mp (ih (max a b)) with h | h
      · rcases max_choice a b with h' | h' <;> rw [h] <;> rw [h'] <;> simp
      · exact List.mem_cons_of_mem _ (List.mem_cons_of_mem _ h)

theorem foldl_max_eq_self : ∀ (l : List ℚ) (a : ℚ), (∀ x ∈ l, x ≤ a) →
    List.foldl max a l = a := by
  intro l
  induction l with
  | nil => intro a _; rfl
  | cons b l ih =>
      intro a h
      rw [List.foldl_cons, max_eq_left (h b (List.mem_cons_self _ _))]
      exact ih a (fun x hx => h x (List.mem_cons_of_mem _ hx))

theorem min_affine (c s a b : ℚ) (hs : 0 ≤ s) :
    min (c + (a - c) * s) (c + (b - c) * s) = c + (min a b - c) * s := by
  rcases le_total a b with h | h
  · rw [min_eq_left h, min_eq_left]
    have := mul_le_mul_of_nonneg_right (sub_le_sub_right h c) hs
    linarith
  · rw [min_eq_right h, min_eq_right]
    have := mul_le_mul_of_nonneg_right (sub_le_sub_right h c) hs
    linarith

theorem max_affine (c s a b : ℚ) (hs : 0 ≤ s) :
    max (c + (a - c) * s) (c + (b - c) * s) = c + (max a b - c) * s := by
  rcases le_total a b with h | h
  · rw [max_eq_right h, max_eq_right]
    have := mul_le_mul_of_nonneg_right (sub_le_sub_right h c) hs
    linarith
  · rw [max_eq_left h, max_eq_left]
    have := mul_le_mul_of_nonneg_right (sub_le_sub_right h c) hs
    linarith

theorem foldl_min_affine (c s : ℚ) (hs : 0 ≤ s) :
    ∀ (l : List ℚ) (a : ℚ),
      List.foldl min (c + (a - c) * s) (l.map (fun v => c + (v - c) * s)) =
        c + (List.foldl min a l - c) * s
  | [], _ => rfl
  | b :: l, a => by
      rw [List.map_cons, List.foldl_cons, List.foldl_cons,
        min_affine c s a b hs, foldl_min_affine c s hs l (min a b)]

theorem foldl_max_affine (c s : ℚ) (hs : 0 ≤ s) :
    ∀ (l : List ℚ) (a : ℚ),
      List.foldl max (c + (a - c) * s) (l.map (fun v => c + (v - c) * s)) =
        c + (List.foldl max a l - c) * s
  | [], _ => rfl
  | b :: l, a => by
      rw [List.map_cons, List.foldl_cons, List.foldl_cons,
        max_affine c s a b hs, foldl_max_affine c s hs l (max a b)]

theorem foldl_min_translate (d : ℚ) :
    ∀ (l : List ℚ) (a : ℚ),
      List.foldl min (a + d) (l.map (fun v => v + d)) = List.foldl min a l + d
  | [], _ => rfl
  | b :: l, a => by
      rw [List.map_cons, List.foldl_cons, List.foldl_cons, min_add_add_right,
        foldl_min_translate d l (min a b)]

theorem foldl_max_translate (d : ℚ) :
    ∀ (l : List ℚ) (a : ℚ),
      List.foldl max (a + d) (l.map (fun v => v + d)) = List.foldl max a l + d
  | [], _ => rfl
  | b :: l, a => by
      rw [List.map_cons, List.foldl_cons, List.foldl_cons, max_add_add_right,
        foldl_max_translate d l (max a b)]

/-! ### Structural lemmas about leaves, maps and shapes -/

theorem leavesList_append : ∀ a b : List PTree,
    leavesList (a ++ b) = leavesList a ++ leavesList b := by
  intro a b
  induction a with
  | nil => simp [leavesList]
  | cons t ts ih => simp [leavesList, ih]

theorem mapLeavesList_eq_map (g : Leaf → Leaf) : ∀ ts : List PTree,
    mapLeavesList g ts = ts.map (PTree.mapLeaves g) := by
  intro ts
  induction ts with
  | nil => simp [mapLeavesList]
  | cons t ts ih => simp [mapLeavesList, ih]

mutual

theorem PTree.leaves_mapLeaves (g : Leaf → Leaf) (t : PTree) :
    (t.mapLeaves g).leaves = t.leaves.map g := by
  cases t with
  | pos l => simp [PTree.mapLeaves, PTree.leaves]
  | node arr => simp [PTree.mapLeaves, PTree.leaves, leavesList_mapLeavesList]

theorem leavesList_mapLeavesList (g : Leaf → Leaf) (ts : List PTree) :
    leavesList (mapLeavesList g ts) = (leavesList ts).map g := by
  cases ts with
  | nil => simp [mapLeavesList, leavesList]
  | cons t ts =>
      simp [mapLeavesList, leavesList, PTree.leaves_mapLeaves, leavesList_mapLeavesList]

end

mutual

theorem PTree.goodShape_mapLeaves (g : Leaf → Leaf) (t : PTree) :
    (t.mapLeaves g).goodShape = t.goodShape := by
  cases t with
  | pos l => simp [PTree.mapLeaves, PTree.goodShape]
  | node arr =>
      rw [PTree.mapLeaves, PTree.goodShape, PTree.goodShape,
        goodShapeList_mapLeavesList g arr, mapLeavesList_eq_map]
      cases arr <;> simp

theorem goodShapeList_mapLeavesList (g : Leaf → Leaf) (ts : List PTree) :
    goodShapeList (mapLeavesList g ts) = goodShapeList ts := by
  cases ts with
  | nil => simp [mapLeavesList, goodShapeList]
  | cons t ts =>
      simp [mapLeavesList, goodShapeList, PTree.goodShape_mapLeaves,
        goodShapeList_mapLeavesList]

end

theorem goodShapeList_mem {ts : List PTree} (h : goodShapeList ts = true) :
    ∀ t ∈ ts, t.goodShape = true := by
  induction ts with
  | nil => intro t ht; simp at ht
  | cons u us ih =>
      rw [goodShapeList, Bool.and_eq_true] at h
      intro t ht
      rcases List.mem_cons.mp ht with h' | h'
      · exact h' ▸ h.1
      · exact ih h.2 t h'

theorem goodShapeList_append : ∀ a b : List PTree,
    goodShapeList (a ++ b) = (goodShapeList a && goodShapeList b) := by
  intro a b
  induction a with
  | nil => simp [goodShapeList]
  | cons t ts ih => simp [goodShapeList, ih, Bool.and_assoc]

mutual

theorem PTree.leaves_ne_nil (t : PTree) (h : t.goodShape = true) :
    t.leaves ≠ [] := by
  cases t with
  | pos l => simp [PTree.leaves]
  | node arr =>
      rw [PTree.goodShape, Bool.and_eq_true] at h
      rw [PTree.leaves]
      exact leavesList_ne_nil arr h.2
        (by simpa [List.isEmpty_iff] using h.1)

theorem leavesList_ne_nil (ts : List PTree) (h : goodShapeList ts = true)
    (hne : ts ≠ []) : leavesList ts ≠ [] := by
  cases ts with
  | nil => exact absurd rfl hne
  | cons t ts =>
      rw [goodShapeList, Bool.and_eq_true] at h
      rw [leavesList]
      intro hc
      rcases List.append_eq_nil.mp hc with ⟨h1, _⟩
      exact PTree.leaves_ne_nil t h.1 h1

end

mutual

theorem PTree.foldBy_eq (op : ℚ → ℚ → ℚ)
    (hop : ∀ a b c, op (op a b) c = op a (op b c)) (f : Leaf → ℚ)
    (t : PTree) (h : t.goodShape = true) :
    t.foldBy op f = listOp op (t.leaves.map f) := by
  cases t with
  | pos l => simp [PTree.foldBy, PTree.leaves, listOp]
  | node arr =>
      rw [PTree.goodShape, Bool.and_eq_true] at h
      rw [PTree.foldBy, PTree.leaves]
      exact foldByList_eq op hop f arr h.2

theorem foldByList_eq (op : ℚ → ℚ → ℚ)
    (hop : ∀ a b c, op (op a b) c = op a (op b c)) (f : Leaf → ℚ)
    (ts : List PTree) (h : goodShapeList ts = true) :
    foldByList op f ts = listOp op ((leavesList ts).map f) := by
  cases ts with
  | nil => simp [foldByList, leavesList, listOp]
  | cons t ts =>
      rw [goodShapeList, Bool.and_eq_true] at h
      cases ts with
      | nil =>
          rw [foldByList]
          rw [PTree.foldBy_eq op hop f t h.1]
          simp [leavesList]
      | cons u us =>
          have h1 := PTree.foldBy_eq op hop f t h.1
          have h2 := foldByList_eq op hop f (u :: us) h.2
          have hne1 : t.leaves ≠ [] := PTree.leaves_ne_nil t h.1
          have hne2 : leavesList (u :: us) ≠ [] :=
            leavesList_ne_nil (u :: us) h.2 (by simp)
          rcases List.exists_cons_of_ne_nil hne1 with ⟨a, l1, ha⟩
          rcases List.exists_cons_of_ne_nil hne2 with ⟨b, l2, hb⟩
          rw [ha] at h1
          rw [hb] at h2
          simp only [List.map_cons, listOp] at h1 h2
          have hA : listOp op (List.map f (a :: l1)) =
              some (List.foldl op (f a) (List.map f l1)) := by
            simp [listOp]
          have hB : listOp op (List.map f (b :: l2)) =
              some (List.foldl op (f b) (List.map f l2)) := by
            simp [listOp]
          have hAB := listOp_append op hop hA hB
          have key : foldByList op f (t :: u :: us) =
              (PTree.foldBy op f t).bind (fun v1 =>
                (foldByList op f (u :: us)).bind (fun v2 => some (op v1 v2))) := rfl
          have hleaves : leavesList (t :: u :: us) = (a :: l1) ++ (b :: l2) := by
            rw [leavesList, ha, hb]
          rw [key, h1, h2, hleaves, List.map_append, hAB]
          rfl

end

theorem PTree.foldBy_isSome (op : ℚ → ℚ → ℚ)
    (hop : ∀ a b c, op (op a b) c = op a (op b c)) (f : Leaf → ℚ)
    (t : PTree) (h : t.goodShape = true) :
    ∃ v, t.foldBy op f = some v := by
  rw [PTree.foldBy_eq op hop f t h]
  rcases List.exists_cons_of_ne_nil (PTree.leaves_ne_nil t h) with ⟨a, l, ha⟩
  rw [ha]
  exact ⟨_, rfl⟩

/-! ### Lemmas about rebuilding a tree from a leaf list -/

theorem setLList_length : ∀ (ts : List PTree) (ls : List Leaf),
    (setLList ts ls).1.length = ts.length := by
  intro ts
  induction ts with
  | nil => intro ls; rfl
  | cons t ts ih => intro ls; simp [setLList, ih]

mutual

theorem setL_goodShape (t : PTree) (ls : List Leaf) :
    (setL t ls).1.goodShape = t.goodShape := by
  cases t with
  | pos l => cases ls <;> rfl
  | node arr =>
      show PTree.goodShape (.node (setLList arr ls).1) = _
      rw [PTree.goodShape, PTree.goodShape, setLList_goodShape arr ls]
      have hemp : (setLList arr ls).1.isEmpty = arr.isEmpty := by
        cases arr with
        | nil => rfl
        | cons t ts => rfl
      rw [hemp]

theorem setLList_goodShape (ts : List PTree) (ls : List Leaf) :
    goodShapeList (setLList ts ls).1 = goodShapeList ts := by
  cases ts with
  | nil => rfl
  | cons t ts =>
      show goodShapeList ((setL t ls).1 :: (setLList ts (setL t ls).2).1) = _
      rw [goodShapeList, goodShapeList, setL_goodShape t ls,
        setLList_goodShape ts (setL t ls).2]

end

mutual

theorem setL_take_drop (t : PTree) (ls : List Leaf)
    (h : t.leaves.length ≤ ls.length) :
    (setL t ls).1.leaves = ls.take t.leaves.length ∧
      (setL t ls).2 = ls.drop t.leaves.length := by
  cases t with
  | pos l =>
      cases ls with
      | nil => simp [PTree.leaves] at h
      | cons a ls => simp [setL, PTree.leaves]
  | node arr =>
      rw [PTree.leaves] at h ⊢
      have := setLList_take_drop arr ls h
      exact ⟨by rw [show (setL (.node arr) ls).1 = .node (setLList arr ls).1 from rfl,
        PTree.leaves, this.1], by rw [show (setL (.node arr) ls).2 = (setLList arr ls).2 from rfl, this.2]⟩

theorem setLList_take_drop (ts : List PTree) (ls : List Leaf)
    (h : (leavesList ts).length ≤ ls.length) :
    leavesList (setLList ts ls).1 = ls.take (leavesList ts).length ∧
      (setLList ts ls).2 = ls.drop (leavesList ts).length := by
  cases ts with
  | nil => simp [setLList, leavesList]
  | cons t ts =>
      rw [leavesList, List.length_append] at h ⊢
      have h1 : t.leaves.length ≤ ls.length := le_trans (Nat.le_add_right _ _) h
      have ht := setL_take_drop t ls h1
      have h2 : (leavesList ts).length ≤ ((setL t ls).2).length := by
        rw [ht.2, List.length_drop]
        omega
      have hts := setLList_take_drop ts (setL t ls).2 h2
      constructor
      · show leavesList ((setL t ls).1 :: (setLList ts (setL t ls).2).1) = _
        rw [leavesList, ht.1, hts.1, ht.2, List.take_add]
      · show (setLList ts (setL t ls).2).2 = _
        rw [hts.2, ht.2, List.drop_drop, Nat.add_comm]

end

theorem setLeaves_of_length_eq (t : PTree) (ls : List Leaf)
    (h : ls.length = t.leaves.length) :
    (t.setLeaves ls).leaves = ls := by
  rw [PTree.setLeaves, (setL_take_drop t ls (le_of_eq h.symm)).1, ← h,
    List.take_length]

theorem setLeaves_goodShape (t : PTree) (ls : List Leaf) :
    (t.setLeaves ls).goodShape = t.goodShape :=
  setL_goodShape t ls

mutual

theorem setL_map (g : Leaf → Leaf) (t : PTree) (rest : List Leaf) :
    setL t (t.leaves.map g ++ rest) = (t.mapLeaves g, rest) := by
  cases t with
  | pos l => rfl
  | node arr =>
      show (PTree.node (setLList arr ((leavesList arr).map g ++ rest)).1,
        (setLList arr ((leavesList arr).map g ++ rest)).2) = _
      rw [setLList_map g arr rest]
      rfl

theorem setLList_map (g : Leaf → Leaf) (ts : List PTree) (rest : List Leaf) :
    setLList ts ((leavesList ts).map g ++ rest) = (mapLeavesList g ts, rest) := by
  cases ts with
  | nil => rfl
  | cons t ts =>
      rw [leavesList, List.map_append, List.append_assoc]
      show ((setL t (t.leaves.map g ++ ((leavesList ts).map g ++ rest))).1 ::
        (setLList ts (setL t (t.leaves.map g ++ ((leavesList ts).map g ++ rest))).2).1,
        (setLList ts (setL t (t.leaves.map g ++ ((leavesList ts).map g ++ rest))).2).2) = _
      rw [setL_map g t ((leavesList ts).map g ++ rest)]
      rw [show (PTree.mapLeaves g t, (leavesList ts).map g ++ rest).2 =
        (leavesList ts).map g ++ rest from rfl]
      rw [setLList_map g ts rest]
      rfl

end

theorem setLeaves_map (g : Leaf → Leaf) (t : PTree) :
    t.setLeaves (t.leaves.map g) = t.mapLeaves g := by
  rw [PTree.setLeaves]
  have := setL_map g t []
  rw [List.append_nil] at this
  rw [this]

/-! ### The rescale loop for a nonnegative factor -/

theorem listOp_min_bounds {l : List ℚ} {v : ℚ} (h : listOp min l = some v) :
    (∀ x ∈ l, v ≤ x) ∧ v ∈ l := by
  cases l with
  | nil => simp [listOp] at h
  | cons a l =>
      simp only [listOp, Option.some.injEq] at h
      subst h
      exact ⟨fun x hx => foldl_min_le l a x hx, foldl_min_mem l a⟩

theorem listOp_max_bounds {l : List ℚ} {v : ℚ} (h : listOp max l = some v) :
    (∀ x ∈ l, x ≤ v) ∧ v ∈ l := by
  cases l with
  | nil => simp [listOp] at h
  | cons a l =>
      simp only [listOp, Option.some.injEq] at h
      subst h
      exact ⟨fun x hx => foldl_max_le l a x hx, foldl_max_mem l a⟩

theorem foldBy_min_bounds (f : Leaf → ℚ) {t : PTree} {v : ℚ}
    (hg : t.goodShape = true) (h : t.foldBy min f = some v) :
    (∀ l ∈ t.leaves, v ≤ f l) ∧ ∃ l ∈ t.leaves, f l = v := by
  rw [PTree.foldBy_eq min (fun a b c => min_assoc a b c) f t hg] at h
  have := listOp_min_bounds h
  refine ⟨fun l hl => this.1 (f l) (List.mem_map_of_mem f hl), ?_⟩
  rcases List.mem_map.mp this.2 with ⟨l, hl, he⟩
  exact ⟨l, hl, he⟩

theorem foldBy_max_bounds (f : Leaf → ℚ) {t : PTree} {v : ℚ}
    (hg : t.goodShape = true) (h : t.foldBy max f = some v) :
    (∀ l ∈ t.leaves, f l ≤ v) ∧ ∃ l ∈ t.leaves, f l = v := by
  rw [PTree.foldBy_eq max (fun a b c => max_assoc a b c) f t hg] at h
  have := listOp_max_bounds h
  refine ⟨fun l hl => this.1 (f l) (List.mem_map_of_mem f hl), ?_⟩
  rcases List.mem_map.mp this.2 with ⟨l, hl, he⟩
  exact ⟨l, hl, he⟩

theorem setLeaves_min_eq (t : PTree) (hg : t.goodShape = true)
    {f : Leaf → ℚ} (ls : List Leaf) (hlen : ls.length = t.leaves.length)
    {x0 : ℚ} (hb : ∀ l ∈ ls, x0 ≤ f l) (ha : ∃ l ∈ ls, f l = x0) :
    (t.setLeaves ls).foldBy min f = some x0 := by
  have hg' : (t.setLeaves ls).goodShape = true := by
    rw [setLeaves_goodShape]; exact hg
  rw [PTree.foldBy_eq min (fun a b c => min_assoc a b c) f _ hg',
    setLeaves_of_length_eq t ls hlen]
  rcases ha with ⟨w, hw, hwx⟩
  have hne : ls ≠ [] := by intro hc; rw [hc] at hw; simp at hw
  rcases List.exists_cons_of_ne_nil hne with ⟨a, l', hal⟩
  subst hal
  rw [List.map_cons, listOp, Option.some.injEq]
  have hmem := foldl_min_mem (l'.map f) (f a)
  have hle : ∀ x ∈ (f a) :: l'.map f, x0 ≤ x := by
    intro x hx
    rcases List.mem_cons.mp hx with h' | h'
    · exact h' ▸ hb a (List.mem_cons_self _ _)
    · rcases List.mem_map.mp h' with ⟨l, hl, he⟩
      exact he ▸ hb l (List.mem_cons_of_mem _ hl)
  have h1 : x0 ≤ List.foldl min (f a) (l'.map f) := hle _ hmem
  have h2 : List.foldl min (f a) (l'.map f) ≤ x0 := by
    rcases List.mem_cons.mp hw with h' | h'
    · subst h'
      exact hwx ▸ foldl_min_le (l'.map f) (f w) (f w) (List.mem_cons_self _ _)
    · exact hwx ▸ foldl_min_le (l'.map f) (f a) (f w)
        (List.mem_cons_of_mem _ (List.mem_map_of_mem f h'))
  exact le_antisymm h2 h1

theorem rescaleLoop_eq (sc : ℚ) (hsc : 0 ≤ sc) (t : PTree)
    (hg : t.goodShape = true) (x0 y0 : ℚ) :
    ∀ (rest done : List Leaf),
      (done ++ rest).length = t.leaves.length →
      (∀ l ∈ done ++ rest, x0 ≤ l.x ∧ y0 ≤ l.y) →
      (∃ l ∈ done ++ rest, l.x = x0) →
      (∃ l ∈ done ++ rest, l.y = y0) →
      rescaleLoop sc t done rest = some (done ++ rest.map (scale_about x0 y0 sc)) := by
  intro rest
  induction rest with
  | nil => intro done _ _ _ _; simp [rescaleLoop]
  | cons l rest ih =>
      intro done hlen hb hax hay
      have hxm : (t.setLeaves (done ++ l :: rest)).x_min = some x0 :=
        setLeaves_min_eq t hg _ hlen (fun m hm => (hb m hm).1) hax
      have hym : (t.setLeaves (done ++ l :: rest)).y_min = some y0 :=
        setLeaves_min_eq t hg _ hlen (fun m hm => (hb m hm).2) hay
      have hstep : rescaleLoop sc t done (l :: rest) =
          rescaleLoop sc t (done ++ [scale_about x0 y0 sc l]) rest := by
        rw [show rescaleLoop sc t done (l :: rest) =
            (match (t.setLeaves (done ++ l :: rest)).x_min,
                   (t.setLeaves (done ++ l :: rest)).y_min with
             | some xm, some ym =>
                 rescaleLoop sc t
                   (done ++ [{ x := xm + (l.x - xm) * sc,
                               y := ym + (l.y - ym) * sc,
                               dx := l.dx * sc, dy := l.dy * sc }]) rest
             | _, _ => none) from rfl, hxm, hym]
        rfl
      rw [hstep]
      clear hstep
      have hlen' : ((done ++ [scale_about x0 y0 sc l]) ++ rest).length =
          t.leaves.length := by
        simp at hlen ⊢
        omega
      have hl := hb l (by simp)
      have hb' : ∀ m ∈ (done ++ [scale_about x0 y0 sc l]) ++ rest,
          x0 ≤ m.x ∧ y0 ≤ m.y := by
        intro m hm
        rcases List.mem_append.mp hm with hm1 | hm2
        · rcases List.mem_append.mp hm1 with hd | hs
          · exact hb m (List.mem_append_left _ hd)
          · have hme : m = scale_about x0 y0 sc l := by simpa using hs
            subst hme
            constructor
            · show x0 ≤ x0 + (l.x - x0) * sc
              have : 0 ≤ (l.x - x0) * sc := mul_nonneg (by linarith [hl.1]) hsc
              linarith
            · show y0 ≤ y0 + (l.y - y0) * sc
              have : 0 ≤ (l.y - y0) * sc := mul_nonneg (by linarith [hl.2]) hsc
              linarith
        · exact hb m (List.mem_append_right _ (List.mem_cons_of_mem _ hm2))
      have hax' : ∃ m ∈ (done ++ [scale_about x0 y0 sc l]) ++ rest, m.x = x0 := by
        rcases hax with ⟨w, hw, hwx⟩
        rcases List.mem_append.mp hw with hw1 | hw2
        · exact ⟨w, List.mem_append_left _ (List.mem_append_left _ hw1), hwx⟩
        rcases List.mem_cons.mp hw2 with hw3 | hw3
        · refine ⟨scale_about x0 y0 sc l,
            List.mem_append_left _ (List.mem_append_right _ (by simp)), ?_⟩
          have hlx : l.x = x0 := by rw [← hw3]; exact hwx
          show x0 + (l.x - x0) * sc = x0
          rw [hlx]; ring
        · exact ⟨w, List.mem_append_right _ hw3, hwx⟩
      have hay' : ∃ m ∈ (done ++ [scale_about x0 y0 sc l]) ++ rest, m.y = y0 := by
        rcases hay with ⟨w, hw, hwy⟩
        rcases List.mem_append.mp hw with hw1 | hw2
        · exact ⟨w, List.mem_append_left _ (List.mem_append_left _ hw1), hwy⟩
        rcases List.mem_cons.mp hw2 with hw3 | hw3
        · refine ⟨scale_about x0 y0 sc l,
            List.mem_append_left _ (List.mem_append_right _ (by simp)), ?_⟩
          have hly : l.y = y0 := by rw [← hw3]; exact hwy
          show y0 + (l.y - y0) * sc = y0
          rw [hly]; ring
        · exact ⟨w, List.mem_append_right _ hw3, hwy⟩
      rw [ih (done ++ [scale_about x0 y0 sc l]) hlen' hb' hax' hay']
      simp

theorem PTree.rescale_eq_mapLeaves (sc : ℚ) (hsc : 0 ≤ sc) (t : PTree)
    (hg : t.goodShape = true) {x0 y0 : ℚ}
    (hx : t.x_min = some x0) (hy : t.y_min = some y0) :
    t.rescale sc = some (t.mapLeaves (scale_about x0 y0 sc)) := by
  cases t with
  | pos l =>
      rw [PTree.x_min, PTree.foldBy, Option.some.injEq] at hx
      rw [PTree.y_min, PTree.foldBy, Option.some.injEq] at hy
      rw [PTree.rescale, PTree.mapLeaves, Option.some.injEq]
      have : scale_about x0 y0 sc l =
          { l with dx := l.dx * sc, dy := l.dy * sc } := by
        rw [scale_about, ← hx, ← hy]
        show Leaf.mk (l.x + (l.x - l.x) * sc) (l.y + (l.y - l.y) * sc)
          (l.dx * sc) (l.dy * sc) = _
        congr 1 <;> ring
      rw [this]
  | node arr =>
      have hbx := foldBy_min_bounds (fun l => l.x) hg hx
      have hby := foldBy_min_bounds (fun l => l.y) hg hy
      have hb : ∀ l ∈ ([] : List Leaf) ++ (PTree.node arr).leaves,
          x0 ≤ l.x ∧ y0 ≤ l.y := by
        intro l hl
        simp only [List.nil_append] at hl
        exact ⟨hbx.1 l hl, hby.1 l hl⟩
      have hax : ∃ l ∈ ([] : List Leaf) ++ (PTree.node arr).leaves, l.x = x0 := by
        simpa using hbx.2
      have hay : ∃ l ∈ ([] : List Leaf) ++ (PTree.node arr).leaves, l.y = y0 := by
        simpa using hby.2
      have hloop := rescaleLoop_eq sc hsc (.node arr) hg x0 y0
        (PTree.node arr).leaves [] (by simp) hb hax hay
      rw [PTree.rescale, hloop]
      show some ((PTree.node arr).setLeaves
        (([] : List Leaf) ++ (PTree.node arr).leaves.map (scale_about x0 y0 sc))) = _
      rw [List.nil_append, setLeaves_map (scale_about x0 y0 sc) (.node arr)]

/-! ### Bounds of shifted and rescaled trees -/

theorem foldBy_min_affine_map (t : PTree) (hg : t.goodShape = true)
    (g : Leaf → Leaf) (f : Leaf → ℚ) (c s : ℚ) (hs : 0 ≤ s)
    (hf : ∀ l, f (g l) = c + (f l - c) * s) {m : ℚ}
    (h : t.foldBy min f = some m) :
    (t.mapLeaves g).foldBy min f = some (c + (m - c) * s) := by
  rw [PTree.foldBy_eq min (fun a b c => min_assoc a b c) f t hg] at h
  rw [PTree.foldBy_eq min (fun a b c => min_assoc a b c) f _
    (by rw [PTree.goodShape_mapLeaves]; exact hg), PTree.leaves_mapLeaves,
    List.map_map]
  have hcomp : f ∘ g = (fun v => c + (v - c) * s) ∘ f := funext fun l => hf l
  rw [hcomp, ← List.map_map]
  cases hml : t.leaves.map f with
  | nil => rw [hml] at h; simp [listOp] at h
  | cons a l =>
      rw [hml] at h
      simp only [listOp, Option.some.injEq] at h
      subst h
      rw [List.map_cons, listOp, Option.some.injEq, foldl_min_affine c s hs l a]

theorem foldBy_max_affine_map (t : PTree) (hg : t.goodShape = true)
    (g : Leaf → Leaf) (f : Leaf → ℚ) (c s : ℚ) (hs : 0 ≤ s)
    (hf : ∀ l, f (g l) = c + (f l - c) * s) {m : ℚ}
    (h : t.foldBy max f = some m) :
    (t.mapLeaves g).foldBy max f = some (c + (m - c) * s) := by
  rw [PTree.foldBy_eq max (fun a b c => max_assoc a b c) f t hg] at h
  rw [PTree.foldBy_eq max (fun a b c => max_assoc a b c) f _
    (by rw [PTree.goodShape_mapLeaves]; exact hg), PTree.leaves_mapLeaves,
    List.map_map]
  have hcomp : f ∘ g = (fun v => c + (v - c) * s) ∘ f := funext fun l => hf l
  rw [hcomp, ← List.map_map]
  cases hml : t.leaves.map f with
  | nil => rw [hml] at h; simp [listOp] at h
  | cons a l =>
      rw [hml] at h
      simp only [listOp, Option.some.injEq] at h
      subst h
      rw [List.map_cons, listOp, Option.some.injEq, foldl_max_affine c s hs l a]

theorem foldBy_min_translate_map (t : PTree) (hg : t.goodShape = true)
    (g : Leaf → Leaf) (f : Leaf → ℚ) (d : ℚ)
    (hf : ∀ l, f (g l) = f l + d) {m : ℚ}
    (h : t.foldBy min f = some m) :
    (t.mapLeaves g).foldBy min f = some (m + d) := by
  rw [PTree.foldBy_eq min (fun a b c => min_assoc a b c) f t hg] at h
  rw [PTree.foldBy_eq min (fun a b c => min_assoc a b c) f _
    (by rw [PTree.goodShape_mapLeaves]; exact hg), PTree.leaves_mapLeaves,
    List.map_map]
  have hcomp : f ∘ g = (fun v => v + d) ∘ f := funext fun l => hf l
  rw [hcomp, ← List.map_map]
  cases hml : t.leaves.map f with
  | nil => rw [hml] at h; simp [listOp] at h
  | cons a l =>
      rw [hml] at h
      simp only [listOp, Option.some.injEq] at h
      subst h
      rw [List.map_cons, listOp, Option.some.injEq, foldl_min_translate d l a]

theorem foldBy_max_translate_map (t : PTree) (hg : t.goodShape = true)
    (g : Leaf → Leaf) (f : Leaf → ℚ) (d : ℚ)
    (hf : ∀ l, f (g l) = f l + d) {m : ℚ}
    (h : t.foldBy max f = some m) :
    (t.mapLeaves g).foldBy max f = some (m + d) := by
  rw [PTree.foldBy_eq max (fun a b c => max_assoc a b c) f t hg] at h
  rw [PTree.foldBy_eq max (fun a b c => max_assoc a b c) f _
    (by rw [PTree.goodShape_mapLeaves]; exact hg), PTree.leaves_mapLeaves,
    List.map_map]
  have hcomp : f ∘ g = (fun v => v + d) ∘ f := funext fun l => hf l
  rw [hcomp, ← List.map_map]
  cases hml : t.leaves.map f with
  | nil => rw [hml] at h; simp [listOp] at h
  | cons a l =>
      rw [hml] at h
      simp only [listOp, Option.some.injEq] at h
      subst h
      rw [List.map_cons, listOp, Option.some.injEq, foldl_max_translate d l a]

mutual

theorem PTree.mapLeaves_comp (g h : Leaf → Leaf) (t : PTree) :
    (t.mapLeaves g).mapLeaves h = t.mapLeaves (fun l => h (g l)) := by
  cases t with
  | pos l => rfl
  | node arr =>
      show PTree.node (mapLeavesList h (mapLeavesList g arr)) = _
      rw [mapLeavesList_comp g h arr]
      rfl

theorem mapLeavesList_comp (g h : Leaf → Leaf) (ts : List PTree) :
    mapLeavesList h (mapLeavesList g ts) = mapLeavesList (fun l => h (g l)) ts := by
  cases ts with
  | nil => rfl
  | cons t ts =>
      show PTree.mapLeaves h (PTree.mapLeaves g t) :: _ = _
      rw [PTree.mapLeaves_comp g h t, mapLeavesList_comp g h ts]
      rfl

end

mutual

theorem PTree.mapLeaves_id (g : Leaf → Leaf) (hgid : ∀ l, g l = l) (t : PTree) :
    t.mapLeaves g = t := by
  cases t with
  | pos l => rw [PTree.mapLeaves, hgid l]
  | node arr =>
      rw [PTree.mapLeaves, mapLeavesList_id g hgid arr]

theorem mapLeavesList_id (g : Leaf → Leaf) (hgid : ∀ l, g l = l)
    (ts : List PTree) : mapLeavesList g ts = ts := by
  cases ts with
  | nil => rfl
  | cons t ts =>
      rw [mapLeavesList, PTree.mapLeaves_id g hgid t, mapLeavesList_id g hgid ts]

end

/-! ### Subtrees -/

theorem IsSubtree.goodShape {s t : PTree} (hs : IsSubtree s t)
    (hg : t.goodShape = true) : s.goodShape = true := by
  induction hs with
  | refl => exact hg
  | @child t' arr hmem hsub ih =>
      rw [PTree.goodShape, Bool.and_eq_true] at hg
      exact ih (goodShapeList_mem hg.2 t' hmem)

theorem IsSubtree.mapLeaves {s t : PTree} (g : Leaf → Leaf)
    (hs : IsSubtree s t) :
    IsSubtree (s.mapLeaves g) (t.mapLeaves g) := by
  induction hs with
  | refl => exact IsSubtree.refl _
  | @child t' arr hmem hsub ih =>
      rw [PTree.mapLeaves, mapLeavesList_eq_map]
      exact IsSubtree.child (List.mem_map_of_mem _ hmem) ih

/-! ### Positive extents give positive ranges -/

theorem PTree.y_range_pos {t : PTree} (hg : t.goodShape = true)
    (hp : t.posExtents) {v : ℚ} (h : t.y_range = some v) : 0 < v := by
  rw [PTree.y_range] at h
  rcases hmax : t.y_max with _ | a
  · rw [hmax] at h; simp at h
  rcases hmin : t.y_min with _ | b
  · rw [hmax, hmin] at h; simp at h
  rw [hmax, hmin] at h
  simp at h
  have hbmin := foldBy_min_bounds (fun l => l.y) hg hmin
  have hbmax := foldBy_max_bounds (fun l => l.y + l.dy) hg hmax
  rcases hbmin.2 with ⟨w, hw, hwy⟩
  have hwb : w.y = b := hwy
  have h1 : w.y + w.dy ≤ a := hbmax.1 w hw
  have h2 : 0 < w.dy := (hp w hw).2
  rw [← h]
  linarith

theorem PTree.x_range_pos {t : PTree} (hg : t.goodShape = true)
    (hp : t.posExtents) {v : ℚ} (h : t.x_range = some v) : 0 < v := by
  rw [PTree.x_range] at h
  rcases hmax : t.x_max with _ | a
  · rw [hmax] at h; simp at h
  rcases hmin : t.x_min with _ | b
  · rw [hmax, hmin] at h; simp at h
  rw [hmax, hmin] at h
  simp at h
  have hbmin := foldBy_min_bounds (fun l => l.x) hg hmin
  have hbmax := foldBy_max_bounds (fun l => l.x + l.dx) hg hmax
  rcases hbmin.2 with ⟨w, hw, hwx⟩
  have hwb : w.x = b := hwx
  have h1 : w.x + w.dx ≤ a := hbmax.1 w hw
  have h2 : 0 < w.dx := (hp w hw).1
  rw [← h]
  linarith

/-! ### Appending -/

theorem PTree.leaves_append (A B : PTree) :
    (A.append B).leaves = A.leaves ++ B.leaves := by
  cases A with
  | pos l =>
      show leavesList [PTree.pos l, B] = _
      simp [leavesList, PTree.leaves]
  | node arr =>
      show leavesList (arr ++ [B]) = _
      rw [leavesList_append]
      simp [leavesList, PTree.leaves]

theorem PTree.goodShape_append {A B : PTree} (ha : A.goodShape = true)
    (hb : B.goodShape = true) : (A.append B).goodShape = true := by
  cases A with
  | pos l =>
      show ((!([PTree.pos l, B]).isEmpty) &&
        goodShapeList [PTree.pos l, B]) = true
      simp [goodShapeList, PTree.goodShape, hb]
  | node arr =>
      rw [PTree.goodShape, Bool.and_eq_true] at ha
      show ((!(arr ++ [B]).isEmpty) && goodShapeList (arr ++ [B])) = true
      rw [goodShapeList_append]
      simp [goodShapeList, ha.2, hb]

theorem PTree.foldBy_append (op : ℚ → ℚ → ℚ)
    (hop : ∀ a b c, op (op a b) c = op a (op b c)) (f : Leaf → ℚ)
    {A B : PTree} (ha : A.goodShape = true) (hb : B.goodShape = true)
    {va vb : ℚ} (h1 : A.foldBy op f = some va) (h2 : B.foldBy op f = some vb) :
    (A.append B).foldBy op f = some (op va vb) := by
  rw [PTree.foldBy_eq op hop f A ha] at h1
  rw [PTree.foldBy_eq op hop f B hb] at h2
  rw [PTree.foldBy_eq op hop f _ (PTree.goodShape_append ha hb),
    PTree.leaves_append, List.map_append]
  exact listOp_append op hop h1 h2

/-- Unfolding of `populate` as an explicit pipeline: optional `set_width`,
then `_normalise_values`, then the origin check. -/
theorem populate_eq (fw : Option ℚ) (t : PTree) :
    t.populate fw =
      (match fw with | some w => t.set_width w | none => some t).bind
        (fun t1 =>
          ((t1.normalise_values).x_min).bind (fun xm =>
            ((t1.normalise_values).y_min).bind (fun ym =>
              if xm ≠ 0 ∨ ym ≠ 0 then some (PopResult.originError t1.normalise_values)
              else some (PopResult.ok t1.normalise_values)))) := by
  cases fw <;> rfl

/-! ### Claim C3 -/

/-- C3: for every pair of nodes `A`, `B` with `B.y_range == 0`,
`A.stack_right(B)` raises (`ZeroDivisionError` in the source, the spec's
DegenerateExtent) instead of returning a tree.  In the source the division
`self.y_range / other.y_range` is evaluated before `other.shift_x` and
`other.rescale`, so the error is raised before either operand is mutated;
the embedding mirrors that order, with every outcome `none`. -/
theorem stack_right_degenerate (A B : PTree) (h : B.y_range = some 0) :
    A.stack_right B = none := by
  rcases h1 : A.x_max with _ | sxmax
  · simp [PTree.stack_right, h1]
  rcases h2 : B.x_min with _ | oxmin
  · simp [PTree.stack_right, h1, h2]
  rcases h3 : A.y_range with _ | syr
  · simp [PTree.stack_right, h1, h2, h3]
  · simp [PTree.stack_right, h1, h2, h3, h]

/-- C3 witness: a concrete `B` with `y_range == 0` (a `Pos` with `dy = 0`,
accepted, since a zero-size blank image is a legal allocation) makes `stack_right`
fail. -/
theorem stack_right_degenerate_witness :
    (PTree.pos { x := 0, y := 0, dx := 5, dy := 0 }).y_range = some 0 ∧
      (PTree.pos { x := 0, y := 0, dx := 10, dy := 10 }).stack_right
        (PTree.pos { x := 0, y := 0, dx := 5, dy := 0 }) = none :=
  ⟨by with_unfolding_all rfl,
   stack_right_degenerate
     (PTree.pos { x := 0, y := 0, dx := 10, dy := 10 })
     (PTree.pos { x := 0, y := 0, dx := 5, dy := 0 }) (by with_unfolding_all rfl)⟩

/-! ### Claim C5 -/

/-- C5 counterexample: `PosArray.__init__` accepts zero children — both
`PosArray(None)` and `PosArray([])` successfully construct a tree with an
empty child list; no EmptyTree rejection exists anywhere in the source. -/
theorem posarray_init_empty_accepted :
    PosArray.init none = PTree.node [] ∧
      PosArray.init (some []) = PTree.node [] ∧
      (PTree.node []).leaves.length = 0 :=
  ⟨rfl, rfl, rfl⟩

/-- C5 amended: construction never rejects; `None` is normalised to the
empty child list and any child list is stored as given, so a `PosArray`
with zero children exists.  Emptiness only surfaces later: every bounding
query on the empty tree fails (`min()`/`max()` of an empty sequence). -/
theorem posarray_init_total :
    (∀ arr : List PTree, PosArray.init (some arr) = PTree.node arr) ∧
      PosArray.init none = PTree.node [] ∧
      (PosArray.init none).x_min = none ∧
      (PosArray.init none).y_min = none ∧
      (PosArray.init none).x_max = none ∧
      (PosArray.init none).y_max = none :=
  ⟨fun _ => rfl, rfl, rfl, rfl, rfl, rfl⟩

/-! ### Claim C6 -/

/-- C6 counterexample: a `Pos` with `dx = 0` constructs *successfully* —
`np.ones((50, 0, 4))` is a legal (empty) allocation, `__init__` has no
check of its own, and the intended `__post_init__` validation is dead code
(`Pos` is not a dataclass) whose `dx < 0 or dy < 0` condition would accept
`0` anyway, despite its "must be positive" message.  So a constructed
`Pos` with `dx = 0` exists, refuting "every constructed Pos satisfies
`dx > 0` and `dy > 0`". -/
theorem pos_init_zero_accepted :
    Pos.init 0 50 0 0 = some { x := 0, y := 0, dx := 0, dy := 50 } ∧
      Pos.post_init 0 50 = some () :=
  ⟨rfl, rfl⟩

/-- C6 amended: constructing a `Pos` with a *negative* `dx` or `dy` does
raise at construction — not a dedicated InvalidShapeSpec but numpy's
"negative dimensions are not allowed" `ValueError` from the blank-image
allocation inside `__init__` — while a zero size is accepted; hence every
successfully constructed `Pos` satisfies `dx ≥ 0` and `dy ≥ 0`, but not
strict positivity. -/
theorem pos_init_negative_rejected (dx dy x y : ℚ) :
    (dx < 0 ∨ dy < 0 → Pos.init dx dy x y = none) ∧
      (0 ≤ dx → 0 ≤ dy →
        Pos.init dx dy x y = some { x := x, y := y, dx := dx, dy := dy }) := by
  constructor
  · intro h
    rw [Pos.init, if_pos h]
  · intro h1 h2
    rw [Pos.init, if_neg (by push_neg; exact ⟨h1, h2⟩)]

/-- C6 witness: the claim's named input `dx = -5, dy = 50` is rejected at
construction, and a nonnegative pair is accepted. -/
theorem pos_init_negative_rejected_witness :
    ((-5 : ℚ) < 0 ∨ (50 : ℚ) < 0) ∧ Pos.init (-5) 50 0 0 = none ∧
      Pos.init 3 4 1 2 = some { x := 1, y := 2, dx := 3, dy := 4 } :=
  ⟨Or.inl (by norm_num),
   (pos_init_negative_rejected (-5) 50 0 0).1 (Or.inl (by norm_num)),
   (pos_init_negative_rejected 3 4 1 2).2 (by norm_num) (by norm_num)⟩

/-! ### Claim C9 -/

/-- The code's per-value rounding agrees with the spec's round-half-up
exactly when `v + 0.5` is nonnegative, i.e. `v ≥ -1/2`, because Python's
`int()` truncates toward zero. -/
theorem normalise_val_eq_round_half_up {v : ℚ} (h : -(1/2) ≤ v) :
    normalise_val v = ((round_half_up v : ℤ) : ℚ) := by
  rw [normalise_val, int_trunc, round_half_up, if_pos (by linarith)]

/-- C9 counterexample: at `x = -2.3` the code rounds to `-1` (truncation of
`-1.8` toward zero) while round-half-up gives `⌊-1.8⌋ = -2`. -/
theorem normalise_values_neg_counterexample :
    (PTree.node [.pos { x := -(23/10), y := 0, dx := 1, dy := 1 }]).normalise_values =
      PTree.node [.pos { x := -1, y := 0, dx := 1, dy := 1 }] ∧
      round_half_up (-(23/10)) = -2 ∧ ((-1 : ℚ) ≠ ((-2 : ℤ) : ℚ)) := by
  refine ⟨by with_unfolding_all rfl, by with_unfolding_all rfl, by norm_num⟩

/-- C9 amended: `_normalise_values` sets every leaf value `v` to
`int(v + 0.5)`, which is the nearest integer with halves rounded up for all
values `v ≥ -1/2` (in particular all nonnegative coordinates); below that,
Python's `int()` truncates the shifted value toward zero instead. -/
theorem normalise_values_round_half_up (t : PTree)
    (h : ∀ l ∈ t.leaves, -(1/2) ≤ l.x ∧ -(1/2) ≤ l.y ∧ -(1/2) ≤ l.dx ∧ -(1/2) ≤ l.dy) :
    (t.normalise_values).leaves = t.leaves.map
      (fun l => { x := ((round_half_up l.x : ℤ) : ℚ),
                  y := ((round_half_up l.y : ℤ) : ℚ),
                  dx := ((round_half_up l.dx : ℤ) : ℚ),
                  dy := ((round_half_up l.dy : ℤ) : ℚ) }) := by
  rw [PTree.normalise_values, PTree.mapLeaves_comp, PTree.mapLeaves_comp,
    PTree.mapLeaves_comp, PTree.leaves_mapLeaves]
  apply List.map_congr_left
  intro l hl
  rcases h l hl with ⟨h1, h2, h3, h4⟩
  show Leaf.mk (normalise_val l.x) (normalise_val l.y)
    (normalise_val l.dx) (normalise_val l.dy) = _
  rw [normalise_val_eq_round_half_up h1, normalise_val_eq_round_half_up h2,
    normalise_val_eq_round_half_up h3, normalise_val_eq_round_half_up h4]

/-- C9 witness: a tree with nonnegative coordinates, all rounded half-up. -/
theorem normalise_values_round_half_up_witness :
    (∀ l ∈ (PTree.node [.pos { x := 3/2, y := 0, dx := 7/2, dy := 2 }]).leaves,
      -(1/2) ≤ l.x ∧ -(1/2) ≤ l.y ∧ -(1/2) ≤ l.dx ∧ -(1/2) ≤ l.dy) ∧
    ((PTree.node [.pos { x := 3/2, y := 0, dx := 7/2, dy := 2 }]).normalise_values).leaves =
      (PTree.node [.pos { x := 3/2, y := 0, dx := 7/2, dy := 2 }]).leaves.map
        (fun l => { x := ((round_half_up l.x : ℤ) : ℚ),
                    y := ((round_half_up l.y : ℤ) : ℚ),
                    dx := ((round_half_up l.dx : ℤ) : ℚ),
                    dy := ((round_half_up l.dy : ℤ) : ℚ) }) :=
  ⟨by with_unfolding_all decide,
   normalise_values_round_half_up
     (PTree.node [.pos { x := 3/2, y := 0, dx := 7/2, dy := 2 }])
     (by with_unfolding_all decide)⟩

/-! ### Claim C8 -/

/-- C8 counterexample: a tree whose bounding box origin is `(2/5, 0)`,
not `(0, 0)`, yet `populate` succeeds and writes an image: `set_width`
keeps `x_min = 2/5` fixed and integer normalisation rounds it to `0`, so
the origin check (performed only after those mutations) passes. -/
theorem populate_nonzero_origin_ok :
    (PTree.node [.pos { x := 2/5, y := 0, dx := 10, dy := 10 }]).x_min =
        some (2/5) ∧
      (2/5 : ℚ) ≠ 0 ∧
      (PTree.node [.pos { x := 2/5, y := 0, dx := 10, dy := 10 }]).populate
          (some 1500) =
        some (.ok (PTree.node [.pos { x := 0, y := 0, dx := 1500, dy := 1500 }])) := by
  refine ⟨by with_unfolding_all rfl, by norm_num, by with_unfolding_all rfl⟩

/-- C8 amended: `populate` validates the origin only after `set_width` and
integer normalisation; it raises the origin `ValueError` — writing no
image — precisely when the transformed tree's `x_min` or `y_min` is
nonzero.  The original tree's origin may be nonzero and still rasterize,
when rounding brings it to `(0, 0)`. -/
theorem populate_origin_check (t : PTree) (fw : Option ℚ) (r : PopResult)
    (h : t.populate fw = some r) :
    (∃ t2, r = .originError t2 ∧ ¬(t2.x_min = some 0 ∧ t2.y_min = some 0)) ∨
    (∃ t2, r = .ok t2 ∧ t2.x_min = some 0 ∧ t2.y_min = some 0) := by
  rw [populate_eq] at h
  simp only [Option.bind_eq_some] at h
  obtain ⟨t1, hfw, xm, hxm, ym, hym, hif⟩ := h
  by_cases hc : xm ≠ 0 ∨ ym ≠ 0
  · rw [if_pos hc, Option.some.injEq] at hif
    left
    refine ⟨t1.normalise_values, hif.symm, ?_⟩
    rintro ⟨hx0, hy0⟩
    rw [hxm, Option.some.injEq] at hx0
    rw [hym, Option.some.injEq] at hy0
    rcases hc with hc | hc
    · exact hc hx0
    · exact hc hy0
  · rw [if_neg hc, Option.some.injEq] at hif
    push_neg at hc
    right
    refine ⟨t1.normalise_values, hif.symm, ?_, ?_⟩
    · rw [hxm, hc.1]
    · rw [hym, hc.2]

/-- C8 witness: a tree whose normalised origin is nonzero gets the
origin error, one whose normalised origin is zero rasterizes. -/
theorem populate_origin_check_witness :
    ((PTree.node [.pos { x := 1, y := 0, dx := 2, dy := 2 }]).populate (some 10) =
      some (.originError (PTree.node [.pos { x := 1, y := 0, dx := 10, dy := 10 }]))) ∧
    ((∃ t2, (PopResult.originError (PTree.node
        [.pos { x := 1, y := 0, dx := 10, dy := 10 }])) = .originError t2 ∧
        ¬(t2.x_min = some 0 ∧ t2.y_min = some 0)) ∨
      (∃ t2, (PopResult.originError (PTree.node
        [.pos { x := 1, y := 0, dx := 10, dy := 10 }])) = .ok t2 ∧
        t2.x_min = some 0 ∧ t2.y_min = some 0)) :=
  ⟨by with_unfolding_all rfl,
   populate_origin_check (PTree.node [.pos { x := 1, y := 0, dx := 2, dy := 2 }])
     (some 10) _ (by with_unfolding_all rfl)⟩

/-! ### Claim C10 -/

/-- C10: with a `final_width`, `populate` first rescales the tree
(`set_width`), then rounds all coordinates (`_normalise_values`), and only
then checks the origin: whatever the outcome, the state it reports (and, on
failure, the state the tree has been left in) is the rescaled-and-rounded
tree, not the input.  The second conjunct exhibits a run in which the
origin error is raised with the tree already mutated. -/
theorem populate_mutates_before_origin_check :
    (∀ (t : PTree) (w : ℚ) (r : PopResult), t.populate (some w) = some r →
      ∃ t1, t.set_width w = some t1 ∧
        ∃ xm ym, (t1.normalise_values).x_min = some xm ∧
          (t1.normalise_values).y_min = some ym ∧
          r = (if xm ≠ 0 ∨ ym ≠ 0 then PopResult.originError t1.normalise_values
               else PopResult.ok t1.normalise_values)) ∧
    ((PTree.node [.pos { x := 1, y := 0, dx := 2, dy := 2 }]).populate (some 10) =
        some (.originError (PTree.node [.pos { x := 1, y := 0, dx := 10, dy := 10 }])) ∧
      PTree.node [.pos { x := 1, y := 0, dx := 10, dy := 10 }] ≠
        PTree.node [.pos { x := 1, y := 0, dx := 2, dy := 2 }]) := by
  constructor
  · intro t w r h
    rw [populate_eq] at h
    simp only [Option.bind_eq_some] at h
    obtain ⟨t1, hsw, xm, hxm, ym, hym, hif⟩ := h
    refine ⟨t1, hsw, xm, ym, hxm, hym, ?_⟩
    rw [← apply_ite some] at hif
    rw [Option.some.injEq] at hif
    exact hif.symm
  · exact ⟨by with_unfolding_all rfl, by decide⟩

/-- C10 witness: the general clause applied to the concrete failing run. -/
theorem populate_mutates_before_origin_check_witness :
    ∃ t1, (PTree.node [.pos { x := 1, y := 0, dx := 2, dy := 2 }]).set_width 10 =
        some t1 ∧
      ∃ xm ym, (t1.normalise_values).x_min = some xm ∧
        (t1.normalise_values).y_min = some ym ∧
        (PopResult.originError (PTree.node
            [.pos { x := 1, y := 0, dx := 10, dy := 10 }])) =
          (if xm ≠ 0 ∨ ym ≠ 0 then PopResult.originError t1.normalise_values
           else PopResult.ok t1.normalise_values) :=
  populate_mutates_before_origin_check.1
    (PTree.node [.pos { x := 1, y := 0, dx := 2, dy := 2 }]) 10 _
    (by with_unfolding_all rfl)

/-! ### Claim C4 -/

/-- `rescale` never changes a node's child count: the result is the same
tree with its leaves rewritten. -/
theorem PTree.rescale_node (sc : ℚ) (arr : List PTree) {r : PTree}
    (h : (PTree.node arr).rescale sc = some r) :
    ∃ cs, r = .node cs ∧ cs.length = arr.length := by
  rw [PTree.rescale] at h
  rcases hl : rescaleLoop sc (.node arr) [] (PTree.leaves (.node arr)) with _ | ls
  · rw [hl] at h; simp at h
  · rw [hl] at h
    simp only [Option.map_some'] at h
    rw [Option.some.injEq] at h
    refine ⟨(setLList arr ls).1, ?_, setLList_length arr ls⟩
    rw [← h]
    rfl

theorem shift_x_rescale_node (d sc : ℚ) (b : List PTree) {r : PTree}
    (h : ((PTree.node b).shift_x d).rescale sc = some r) :
    ∃ cs, r = .node cs ∧ cs.length = b.length := by
  have hs : (PTree.node b).shift_x d =
      PTree.node (mapLeavesList (fun l => { l with x := l.x + d }) b) := rfl
  rw [hs] at h
  rcases PTree.rescale_node sc _ h with ⟨cs, hr, hlen⟩
  exact ⟨cs, hr, by rw [hlen, mapLeavesList_eq_map, List.length_map]⟩

theorem shift_y_rescale_node (d sc : ℚ) (b : List PTree) {r : PTree}
    (h : ((PTree.node b).shift_y d).rescale sc = some r) :
    ∃ cs, r = .node cs ∧ cs.length = b.length := by
  have hs : (PTree.node b).shift_y d =
      PTree.node (mapLeavesList (fun l => { l with y := l.y + d }) b) := rfl
  rw [hs] at h
  rcases PTree.rescale_node sc _ h with ⟨cs, hr, hlen⟩
  exact ⟨cs, hr, by rw [hlen, mapLeavesList_eq_map, List.length_map]⟩

/-- Unfolding of `stack_right` as an explicit pipeline. -/
theorem stack_right_eq (A B : PTree) :
    A.stack_right B =
      (A.x_max).bind (fun sxmax =>
        (B.x_min).bind (fun oxmin =>
          (A.y_range).bind (fun syr =>
            (B.y_range).bind (fun oyr =>
              if oyr = 0 then none
              else ((B.shift_x (sxmax - oxmin)).rescale (syr / oyr)).bind
                (fun other' => some (A.append other')))))) := rfl

/-- Unfolding of `stack_below` as an explicit pipeline. -/
theorem stack_below_eq (A B : PTree) :
    A.stack_below B =
      (A.y_max).bind (fun symax =>
        (B.y_min).bind (fun oymin =>
          (A.x_range).bind (fun sxr =>
            (B.x_range).bind (fun oxr =>
              if oxr = 0 then none
              else ((B.shift_y (symax - oymin)).rescale (sxr / oxr)).bind
                (fun other' => some (A.append other')))))) := rfl

/-- C4 counterexample: stacking two singleton `PosArray`s.  The claim says
the result's child list is `A`'s children followed by `B`'s children
spliced at the tail; the code instead appends the whole (shifted and
rescaled) `B` as ONE nested composite child, because `PosArray.append`'s
`isinstance(other, Pos)` branch catches `PosArray` operands first and the
splice branch is dead code.  The second child of the result is a nested
array, not a leaf, and the tree differs from the spliced one. -/
theorem stack_right_nests_counterexample :
    (PTree.node [.pos { x := 0, y := 0, dx := 10, dy := 10 }]).stack_right
        (PTree.node [.pos { x := 0, y := 0, dx := 10, dy := 10 }]) =
      some (PTree.node [.pos { x := 0, y := 0, dx := 10, dy := 10 },
        .node [.pos { x := 10, y := 0, dx := 10, dy := 10 }]]) ∧
    PTree.node [.pos { x := 0, y := 0, dx := 10, dy := 10 },
        .node [.pos { x := 10, y := 0, dx := 10, dy := 10 }]] ≠
      PTree.node [.pos { x := 0, y := 0, dx := 10, dy := 10 },
        .pos { x := 10, y := 0, dx := 10, dy := 10 }] := by
  refine ⟨by with_unfolding_all rfl, by decide⟩

/-- C4 amended: when both operands are `PosArray`s, stacking appends the
shifted-and-rescaled `B` as a single trailing nested child: the result's
ordered child list is `a ++ [node b2]` where `b2` holds `B`'s transformed
children one for one (the splice branch of `PosArray.append` is dead code).
The depth-first left-to-right leaf order is nonetheless preserved: the
result's leaves are `A`'s leaves followed by the transformed `B`'s.  Both
`stack_right` and `stack_below` behave this way. -/
theorem stack_appends_nested :
    (∀ (a b : List PTree) (r : PTree),
      (PTree.node a).stack_right (PTree.node b) = some r →
      ∃ off sc b2, ((PTree.node b).shift_x off).rescale sc = some (.node b2) ∧
        b2.length = b.length ∧ r = .node (a ++ [.node b2]) ∧
        r.leaves = leavesList a ++ leavesList b2) ∧
    (∀ (a b : List PTree) (r : PTree),
      (PTree.node a).stack_below (PTree.node b) = some r →
      ∃ off sc b2, ((PTree.node b).shift_y off).rescale sc = some (.node b2) ∧
        b2.length = b.length ∧ r = .node (a ++ [.node b2]) ∧
        r.leaves = leavesList a ++ leavesList b2) := by
  constructor
  · intro a b r h
    rw [stack_right_eq] at h
    simp only [Option.bind_eq_some] at h
    obtain ⟨sxmax, hx1, oxmin, hx2, syr, hx3, oyr, hx4, hrest⟩ := h
    by_cases h0 : oyr = 0
    · rw [if_pos h0] at hrest; simp at hrest
    rw [if_neg h0] at hrest
    simp only [Option.bind_eq_some] at hrest
    obtain ⟨other', hresc, hsome⟩ := hrest
    rw [Option.some.injEq] at hsome
    rcases shift_x_rescale_node (sxmax - oxmin) (syr / oyr) b hresc with
      ⟨b2, hocs, hlen⟩
    have hr : r = .node (a ++ [.node b2]) := by
      rw [← hsome, hocs]
      rfl
    refine ⟨sxmax - oxmin, syr / oyr, b2, hocs ▸ hresc, hlen, hr, ?_⟩
    rw [hr]
    show leavesList (a ++ [PTree.node b2]) = _
    rw [leavesList_append]
    simp [leavesList, PTree.leaves]
  · intro a b r h
    rw [stack_below_eq] at h
    simp only [Option.bind_eq_some] at h
    obtain ⟨symax, hx1, oymin, hx2, sxr, hx3, oxr, hx4, hrest⟩ := h
    by_cases h0 : oxr = 0
    · rw [if_pos h0] at hrest; simp at hrest
    rw [if_neg h0] at hrest
    simp only [Option.bind_eq_some] at hrest
    obtain ⟨other', hresc, hsome⟩ := hrest
    rw [Option.some.injEq] at hsome
    rcases shift_y_rescale_node (symax - oymin) (sxr / oxr) b hresc with
      ⟨b2, hocs, hlen⟩
    have hr : r = .node (a ++ [.node b2]) := by
      rw [← hsome, hocs]
      rfl
    refine ⟨symax - oymin, sxr / oxr, b2, hocs ▸ hresc, hlen, hr, ?_⟩
    rw [hr]
    show leavesList (a ++ [PTree.node b2]) = _
    rw [leavesList_append]
    simp [leavesList, PTree.leaves]

/-- C4 witness: two singleton `PosArray`s stacked right: the transformed
`B` hangs as one nested child, and the leaf order is `A`'s leaf then
`B`'s. -/
theorem stack_appends_nested_witness :
    ∃ off sc b2,
      ((PTree.node [.pos { x := 0, y := 0, dx := 10, dy := 10 }]).shift_x
          off).rescale sc = some (.node b2) ∧
      b2.length = [PTree.pos { x := 0, y := 0, dx := 10, dy := 10 }].length ∧
      (PTree.node [.pos { x := 0, y := 0, dx := 10, dy := 10 },
        .node [.pos { x := 10, y := 0, dx := 10, dy := 10 }]]) =
        .node ([PTree.pos { x := 0, y := 0, dx := 10, dy := 10 }] ++
          [.node b2]) ∧
      (PTree.node [.pos { x := 0, y := 0, dx := 10, dy := 10 },
        .node [.pos { x := 10, y := 0, dx := 10, dy := 10 }]]).leaves =
        leavesList [PTree.pos { x := 0, y := 0, dx := 10, dy := 10 }] ++
          leavesList b2 :=
  stack_appends_nested.1
    [PTree.pos { x := 0, y := 0, dx := 10, dy := 10 }]
    [PTree.pos { x := 0, y := 0, dx := 10, dy := 10 }]
    (PTree.node [.pos { x := 0, y := 0, dx := 10, dy := 10 },
      .node [.pos { x := 10, y := 0, dx := 10, dy := 10 }]])
    (by with_unfolding_all rfl)

/-! ### Claim C2 -/

theorem y_range_eq (t : PTree) {a b : ℚ} (hmax : t.y_max = some a)
    (hmin : t.y_min = some b) : t.y_range = some (a - b) := by
  have hr : t.y_range =
      (t.y_max).bind (fun u => (t.y_min).bind (fun v => some (u - v))) := rfl
  rw [hr, hmax, hmin]
  rfl

theorem x_range_eq (t : PTree) {a b : ℚ} (hmax : t.x_max = some a)
    (hmin : t.x_min = some b) : t.x_range = some (a - b) := by
  have hr : t.x_range =
      (t.x_max).bind (fun u => (t.x_min).bind (fun v => some (u - v))) := rfl
  rw [hr, hmax, hmin]
  rfl

/-- C2 counterexample: two `Pos` nodes with positive extents and
`B.y_range = 10 > 0` but different `y_min` (`A` at `y = 0`, `B` at
`y = 5`): `stack_right` leaves `B`'s vertical position untouched, so the
result's `height_range` is `15`, not `A`'s `10`. -/
theorem stack_right_misaligned_counterexample :
    (PTree.pos { x := 0, y := 0, dx := 10, dy := 10 }).stack_right
        (PTree.pos { x := 0, y := 5, dx := 10, dy := 10 }) =
      some (PTree.node [.pos { x := 0, y := 0, dx := 10, dy := 10 },
                        .pos { x := 10, y := 5, dx := 10, dy := 10 }]) ∧
    (PTree.pos { x := 0, y := 5, dx := 10, dy := 10 }).y_range = some 10 ∧
    (PTree.pos { x := 0, y := 0, dx := 10, dy := 10 }).y_range = some 10 ∧
    (PTree.node [.pos { x := 0, y := 0, dx := 10, dy := 10 },
                 .pos { x := 10, y := 5, dx := 10, dy := 10 }]).y_range =
      some 15 ∧
    (15 : ℚ) ≠ 10 := by
  refine ⟨by with_unfolding_all rfl, by with_unfolding_all rfl,
    by with_unfolding_all rfl, by with_unfolding_all rfl, by norm_num⟩

/-- C2 amended: for well-formed operands (every node nonempty, every leaf
with positive extents) whose top edges are aligned (`A.y_min = B.y_min`, the
situation every fresh composition starts from), `stack_right` returns a
tree with `height_range` exactly `A`'s and `x_max = A.x_max + B.x_range *
(A.y_range / B.y_range)`; the offset `A.x_max - B.x_min` is taken from the
unscaled coordinates, before the rescale.  (Exact rational equality stands
in for the claim's floating tolerance.) -/
theorem stack_right_aligned (A B : PTree)
    (hgA : A.goodShape = true) (hgB : B.goodShape = true)
    (hpA : A.posExtents) (hpB : B.posExtents)
    {ay : ℚ} (hAy : A.y_min = some ay) (hBy : B.y_min = some ay) :
    ∃ (r : PTree) (axmax syr oyr bxr : ℚ),
      A.x_max = some axmax ∧ A.y_range = some syr ∧ B.y_range = some oyr ∧
      B.x_range = some bxr ∧ A.stack_right B = some r ∧
      r.y_range = some syr ∧ r.x_max = some (axmax + bxr * (syr / oyr)) := by
  have hopmin : ∀ a b c : ℚ, min (min a b) c = min a (min b c) :=
    fun a b c => min_assoc a b c
  have hopmax : ∀ a b c : ℚ, max (max a b) c = max a (max b c) :=
    fun a b c => max_assoc a b c
  obtain ⟨axmax, haxmax⟩ :=
    PTree.foldBy_isSome max hopmax (fun l => l.x + l.dx) A hgA
  obtain ⟨aymax, haymax⟩ :=
    PTree.foldBy_isSome max hopmax (fun l => l.y + l.dy) A hgA
  obtain ⟨bxmin, hbxmin⟩ :=
    PTree.foldBy_isSome min hopmin (fun l => l.x) B hgB
  obtain ⟨bxmax, hbxmax⟩ :=
    PTree.foldBy_isSome max hopmax (fun l => l.x + l.dx) B hgB
  obtain ⟨bymax, hbymax⟩ :=
    PTree.foldBy_isSome max hopmax (fun l => l.y + l.dy) B hgB
  have haxmax' : A.x_max = some axmax := haxmax
  have haymax' : A.y_max = some aymax := haymax
  have hbxmin' : B.x_min = some bxmin := hbxmin
  have hbxmax' : B.x_max = some bxmax := hbxmax
  have hbymax' : B.y_max = some bymax := hbymax
  have hAyr : A.y_range = some (aymax - ay) := y_range_eq A haymax' hAy
  have hByr : B.y_range = some (bymax - ay) := y_range_eq B hbymax' hBy
  have hBxr : B.x_range = some (bxmax - bxmin) := x_range_eq B hbxmax' hbxmin'
  have hsyr : 0 < aymax - ay := PTree.y_range_pos hgA hpA hAyr
  have hoyr : 0 < bymax - ay := PTree.y_range_pos hgB hpB hByr
  have hbxr : 0 < bxmax - bxmin := PTree.x_range_pos hgB hpB hBxr
  have hne : bymax - ay ≠ 0 := ne_of_gt hoyr
  have hscpos : 0 < (aymax - ay) / (bymax - ay) := div_pos hsyr hoyr
  -- the shifted copy of B
  have hgB' : (B.shift_x (axmax - bxmin)).goodShape = true := by
    rw [PTree.shift_x, PTree.goodShape_mapLeaves]; exact hgB
  have hB'xmin : (B.shift_x (axmax - bxmin)).x_min =
      some (bxmin + (axmax - bxmin)) :=
    foldBy_min_translate_map B hgB _ (fun l => l.x) (axmax - bxmin)
      (fun l => rfl) hbxmin
  have hB'xmax : (B.shift_x (axmax - bxmin)).x_max =
      some (bxmax + (axmax - bxmin)) :=
    foldBy_max_translate_map B hgB _ (fun l => l.x + l.dx) (axmax - bxmin)
      (fun l => by
        show (l.x + (axmax - bxmin)) + l.dx = (l.x + l.dx) + (axmax - bxmin)
        ring) hbxmax
  have hB'ymin : (B.shift_x (axmax - bxmin)).y_min = some ay := by
    have := foldBy_min_translate_map B hgB
      (fun l => { l with x := l.x + (axmax - bxmin) }) (fun l => l.y) 0
      (fun l => by show l.y = l.y + 0; ring) hBy
    rw [add_zero] at this
    exact this
  have hB'ymax : (B.shift_x (axmax - bxmin)).y_max = some bymax := by
    have := foldBy_max_translate_map B hgB
      (fun l => { l with x := l.x + (axmax - bxmin) }) (fun l => l.y + l.dy) 0
      (fun l => by show l.y + l.dy = (l.y + l.dy) + 0; ring) hbymax
    rw [add_zero] at this
    exact this
  -- the rescaled copy of B
  have hresc := PTree.rescale_eq_mapLeaves ((aymax - ay) / (bymax - ay))
    (le_of_lt hscpos) (B.shift_x (axmax - bxmin)) hgB' hB'xmin hB'ymin
  have hgB2 : ((B.shift_x (axmax - bxmin)).mapLeaves
      (scale_about (bxmin + (axmax - bxmin)) ay
        ((aymax - ay) / (bymax - ay)))).goodShape = true := by
    rw [PTree.goodShape_mapLeaves]; exact hgB'
  have hB2ymin : ((B.shift_x (axmax - bxmin)).mapLeaves
      (scale_about (bxmin + (axmax - bxmin)) ay
        ((aymax - ay) / (bymax - ay)))).y_min = some ay := by
    have := foldBy_min_affine_map (B.shift_x (axmax - bxmin)) hgB'
      (scale_about (bxmin + (axmax - bxmin)) ay ((aymax - ay) / (bymax - ay)))
      (fun l => l.y) ay ((aymax - ay) / (bymax - ay)) (le_of_lt hscpos)
      (fun l => rfl) hB'ymin
    rw [show ay + (ay - ay) * ((aymax - ay) / (bymax - ay)) = ay from by ring]
      at this
    exact this
  have hB2ymax : ((B.shift_x (axmax - bxmin)).mapLeaves
      (scale_about (bxmin + (axmax - bxmin)) ay
        ((aymax - ay) / (bymax - ay)))).y_max = some aymax := by
    have := foldBy_max_affine_map (B.shift_x (axmax - bxmin)) hgB'
      (scale_about (bxmin + (axmax - bxmin)) ay ((aymax - ay) / (bymax - ay)))
      (fun l => l.y + l.dy) ay ((aymax - ay) / (bymax - ay)) (le_of_lt hscpos)
      (fun l => by
        show (ay + (l.y - ay) * ((aymax - ay) / (bymax - ay))) +
            l.dy * ((aymax - ay) / (bymax - ay)) =
          ay + ((l.y + l.dy) - ay) * ((aymax - ay) / (bymax - ay))
        ring) hB'ymax
    rw [show ay + (bymax - ay) * ((aymax - ay) / (bymax - ay)) = aymax from by
      field_simp] at this
    exact this
  have hB2xmax : ((B.shift_x (axmax - bxmin)).mapLeaves
      (scale_about (bxmin + (axmax - bxmin)) ay
        ((aymax - ay) / (bymax - ay)))).x_max =
      some (axmax + (bxmax - bxmin) * ((aymax - ay) / (bymax - ay))) := by
    have := foldBy_max_affine_map (B.shift_x (axmax - bxmin)) hgB'
      (scale_about (bxmin + (axmax - bxmin)) ay ((aymax - ay) / (bymax - ay)))
      (fun l => l.x + l.dx) (bxmin + (axmax - bxmin))
      ((aymax - ay) / (bymax - ay)) (le_of_lt hscpos)
      (fun l => by
        show ((bxmin + (axmax - bxmin)) +
            (l.x - (bxmin + (axmax - bxmin))) * ((aymax - ay) / (bymax - ay))) +
            l.dx * ((aymax - ay) / (bymax - ay)) =
          (bxmin + (axmax - bxmin)) +
            ((l.x + l.dx) - (bxmin + (axmax - bxmin))) *
              ((aymax - ay) / (bymax - ay))
        ring) hB'xmax
    rw [show (bxmin + (axmax - bxmin)) +
        ((bxmax + (axmax - bxmin)) - (bxmin + (axmax - bxmin))) *
          ((aymax - ay) / (bymax - ay)) =
        axmax + (bxmax - bxmin) * ((aymax - ay) / (bymax - ay)) from by ring]
      at this
    exact this
  -- the stacked tree
  have hsr : A.stack_right B =
      some (A.append ((B.shift_x (axmax - bxmin)).mapLeaves
        (scale_about (bxmin + (axmax - bxmin)) ay
          ((aymax - ay) / (bymax - ay))))) := by
    rw [stack_right_eq, haxmax', hbxmin', hAyr, hByr]
    simp only [Option.some_bind]
    rw [if_neg hne, hresc]
    simp only [Option.some_bind]
  have hrymin : (A.append ((B.shift_x (axmax - bxmin)).mapLeaves
      (scale_about (bxmin + (axmax - bxmin)) ay
        ((aymax - ay) / (bymax - ay))))).y_min = some ay := by
    have := PTree.foldBy_append min hopmin (fun l => l.y) hgA hgB2 hAy hB2ymin
    rw [min_self] at this
    exact this
  have hrymax : (A.append ((B.shift_x (axmax - bxmin)).mapLeaves
      (scale_about (bxmin + (axmax - bxmin)) ay
        ((aymax - ay) / (bymax - ay))))).y_max = some aymax := by
    have := PTree.foldBy_append max hopmax (fun l => l.y + l.dy) hgA hgB2
      haymax hB2ymax
    rw [max_self] at this
    exact this
  have hrxmax : (A.append ((B.shift_x (axmax - bxmin)).mapLeaves
      (scale_about (bxmin + (axmax - bxmin)) ay
        ((aymax - ay) / (bymax - ay))))).x_max =
      some (axmax + (bxmax - bxmin) * ((aymax - ay) / (bymax - ay))) := by
    have := PTree.foldBy_append max hopmax (fun l => l.x + l.dx) hgA hgB2
      haxmax hB2xmax
    rw [max_eq_right (le_add_of_nonneg_right
      (mul_nonneg (le_of_lt hbxr) (le_of_lt hscpos)))] at this
    exact this
  exact ⟨_, axmax, aymax - ay, bymax - ay, bxmax - bxmin, haxmax', hAyr, hByr,
    hBxr, hsr, y_range_eq _ hrymax hrymin, hrxmax⟩

/-- C2 witness: `A` of height 10, `B` a 20×5 leaf, both with `y_min = 0`:
the result keeps height 10 and reaches `x_max = 10 + 20·2 = 50`. -/
theorem stack_right_aligned_witness :
    ∃ (r : PTree) (axmax syr oyr bxr : ℚ),
      (PTree.pos { x := 0, y := 0, dx := 10, dy := 10 }).x_max = some axmax ∧
      (PTree.pos { x := 0, y := 0, dx := 10, dy := 10 }).y_range = some syr ∧
      (PTree.pos { x := 0, y := 0, dx := 20, dy := 5 }).y_range = some oyr ∧
      (PTree.pos { x := 0, y := 0, dx := 20, dy := 5 }).x_range = some bxr ∧
      (PTree.pos { x := 0, y := 0, dx := 10, dy := 10 }).stack_right
        (PTree.pos { x := 0, y := 0, dx := 20, dy := 5 }) = some r ∧
      r.y_range = some syr ∧ r.x_max = some (axmax + bxr * (syr / oyr)) :=
  stack_right_aligned
    (PTree.pos { x := 0, y := 0, dx := 10, dy := 10 })
    (PTree.pos { x := 0, y := 0, dx := 20, dy := 5 })
    (by decide) (by decide) (by with_unfolding_all decide)
    (by with_unfolding_all decide)
    (show (PTree.pos { x := 0, y := 0, dx := 10, dy := 10 }).y_min = some 0 by
      with_unfolding_all rfl)
    (show (PTree.pos { x := 0, y := 0, dx := 20, dy := 5 }).y_min = some 0 by
      with_unfolding_all rfl)

/-! ### Claim C7 -/

/-- C7 counterexample: for the negative factor `f = -1` the round trip does
not restore `x_range`.  The loop re-reads the tree minimum from the
partially mutated state, so with a negative factor different leaves are
repositioned about different anchors: two leaves of widths 5 and 3 starting
at `x = 0` and `x = 10` (`x_range = 13`) come back with `x_range = 15`. -/
theorem rescale_roundtrip_neg_counterexample :
    ((PTree.node [.pos { x := 0, y := 0, dx := 5, dy := 5 },
                  .pos { x := 10, y := 0, dx := 3, dy := 3 }]).rescale (-1)).bind
        (fun t1 => t1.rescale (1 / (-1))) =
      some (PTree.node [.pos { x := -20, y := 0, dx := 5, dy := 5 },
                        .pos { x := -30, y := 0, dx := 3, dy := 3 }]) ∧
    (PTree.node [.pos { x := -20, y := 0, dx := 5, dy := 5 },
                 .pos { x := -30, y := 0, dx := 3, dy := 3 }]).x_range =
      some 15 ∧
    (PTree.node [.pos { x := 0, y := 0, dx := 5, dy := 5 },
                 .pos { x := 10, y := 0, dx := 3, dy := 3 }]).x_range =
      some 13 ∧
    (15 : ℚ) ≠ 13 := by
  refine ⟨by with_unfolding_all rfl, by with_unfolding_all rfl,
    by with_unfolding_all rfl, by norm_num⟩

/-- C7 amended: for every *positive* factor `f`, rescaling a well-formed
tree by `f` and then by `1/f` restores the tree exactly — every leaf, hence
in particular `x_range` and `y_range` (exact rational equality in place of
the floating tolerance). -/
theorem rescale_roundtrip (t : PTree) (f : ℚ) (hf : 0 < f)
    (hg : t.goodShape = true) {x0 y0 : ℚ}
    (hx : t.x_min = some x0) (hy : t.y_min = some y0) :
    ∃ t1 t2, t.rescale f = some t1 ∧ t1.rescale (1 / f) = some t2 ∧
      t2 = t ∧ t2.x_range = t.x_range ∧ t2.y_range = t.y_range := by
  have hf0 : f ≠ 0 := ne_of_gt hf
  have h1 := PTree.rescale_eq_mapLeaves f (le_of_lt hf) t hg hx hy
  have hg1 : (t.mapLeaves (scale_about x0 y0 f)).goodShape = true := by
    rw [PTree.goodShape_mapLeaves]; exact hg
  have hx1 : (t.mapLeaves (scale_about x0 y0 f)).x_min = some x0 := by
    have := foldBy_min_affine_map t hg (scale_about x0 y0 f) (fun l => l.x)
      x0 f (le_of_lt hf) (fun l => rfl) hx
    rw [show x0 + (x0 - x0) * f = x0 from by ring] at this
    exact this
  have hy1 : (t.mapLeaves (scale_about x0 y0 f)).y_min = some y0 := by
    have := foldBy_min_affine_map t hg (scale_about x0 y0 f) (fun l => l.y)
      y0 f (le_of_lt hf) (fun l => rfl) hy
    rw [show y0 + (y0 - y0) * f = y0 from by ring] at this
    exact this
  have h2 := PTree.rescale_eq_mapLeaves (1 / f) (by positivity) _ hg1 hx1 hy1
  have hid : ∀ l, scale_about x0 y0 (1 / f) (scale_about x0 y0 f l) = l := by
    intro l
    cases l with
    | mk lx ly ldx ldy =>
        simp only [scale_about, Leaf.mk.injEq]
        refine ⟨?_, ?_, ?_, ?_⟩ <;> field_simp
  have ht2 : (t.mapLeaves (scale_about x0 y0 f)).mapLeaves
      (scale_about x0 y0 (1 / f)) = t :=
    (PTree.mapLeaves_comp _ _ t).trans (PTree.mapLeaves_id _ hid t)
  refine ⟨_, _, h1, h2, ht2, ?_, ?_⟩
  · rw [ht2]
  · rw [ht2]

/-- C7 witness: a two-leaf tree rescaled by 2 and then 1/2 comes back
unchanged. -/
theorem rescale_roundtrip_witness :
    (0 : ℚ) < 2 ∧
    ∃ t1 t2,
      (PTree.node [.pos { x := 0, y := 0, dx := 4, dy := 4 },
                   .pos { x := 4, y := 1, dx := 2, dy := 2 }]).rescale 2 =
        some t1 ∧
      t1.rescale (1 / 2) = some t2 ∧
      t2 = PTree.node [.pos { x := 0, y := 0, dx := 4, dy := 4 },
                       .pos { x := 4, y := 1, dx := 2, dy := 2 }] ∧
      t2.x_range = (PTree.node [.pos { x := 0, y := 0, dx := 4, dy := 4 },
                                .pos { x := 4, y := 1, dx := 2, dy := 2 }]).x_range ∧
      t2.y_range = (PTree.node [.pos { x := 0, y := 0, dx := 4, dy := 4 },
                                .pos { x := 4, y := 1, dx := 2, dy := 2 }]).y_range :=
  ⟨by norm_num,
   rescale_roundtrip
     (PTree.node [.pos { x := 0, y := 0, dx := 4, dy := 4 },
                  .pos { x := 4, y := 1, dx := 2, dy := 2 }]) 2 (by norm_num)
     (by decide)
     (show (PTree.node [.pos { x := 0, y := 0, dx := 4, dy := 4 },
        .pos { x := 4, y := 1, dx := 2, dy := 2 }]).x_min = some 0 by
       with_unfolding_all rfl)
     (show (PTree.node [.pos { x := 0, y := 0, dx := 4, dy := 4 },
        .pos { x := 4, y := 1, dx := 2, dy := 2 }]).y_min = some 0 by
       with_unfolding_all rfl)⟩

/-! ### Claim C1 -/

/-- C1: for a well-formed `PosArray` and factor `f > 0`, `rescale f` keeps
`x_min` and `y_min` fixed, multiplies every transitively contained leaf's
`dx`/`dy` by `f`, and repositions every leaf so that, inside *every*
subtree `s` (whose image under the rescale is the corresponding subtree of
the result), the offset of each leaf from `s`'s own local minimum is scaled
by `f` — the self-similar per-level rule.  (The code scales every leaf
about the *global* minimum of the tree being rescaled; for a uniform factor
this coincides with the per-level rule, as all pairwise offsets scale.) -/
theorem rescale_self_similar (t : PTree) (f x0 y0 : ℚ) (hf : 0 < f)
    (hg : t.goodShape = true) (hx : t.x_min = some x0)
    (hy : t.y_min = some y0) :
    ∃ t', t.rescale f = some t' ∧
      t' = t.mapLeaves (scale_about x0 y0 f) ∧
      t'.x_min = some x0 ∧ t'.y_min = some y0 ∧
      t'.leaves.length = t.leaves.length ∧
      (∀ i (hi : i < t.leaves.length) (hi' : i < t'.leaves.length),
        (t'.leaves[i]).dx = (t.leaves[i]).dx * f ∧
        (t'.leaves[i]).dy = (t.leaves[i]).dy * f) ∧
      (∀ s, IsSubtree s t → ∀ mx my, s.x_min = some mx → s.y_min = some my →
        IsSubtree (s.mapLeaves (scale_about x0 y0 f)) t' ∧
        (s.mapLeaves (scale_about x0 y0 f)).x_min = some (x0 + (mx - x0) * f) ∧
        (s.mapLeaves (scale_about x0 y0 f)).y_min = some (y0 + (my - y0) * f) ∧
        (s.mapLeaves (scale_about x0 y0 f)).leaves.length = s.leaves.length ∧
        (∀ i (hi : i < s.leaves.length)
            (hi' : i < (s.mapLeaves (scale_about x0 y0 f)).leaves.length),
          ((s.mapLeaves (scale_about x0 y0 f)).leaves[i]).x -
              (x0 + (mx - x0) * f) = ((s.leaves[i]).x - mx) * f ∧
          ((s.mapLeaves (scale_about x0 y0 f)).leaves[i]).y -
              (y0 + (my - y0) * f) = ((s.leaves[i]).y - my) * f)) := by
  have h1 := PTree.rescale_eq_mapLeaves f (le_of_lt hf) t hg hx hy
  refine ⟨t.mapLeaves (scale_about x0 y0 f), h1, rfl, ?_, ?_, ?_, ?_, ?_⟩
  · have := foldBy_min_affine_map t hg (scale_about x0 y0 f) (fun l => l.x)
      x0 f (le_of_lt hf) (fun l => rfl) hx
    rw [show x0 + (x0 - x0) * f = x0 from by ring] at this
    exact this
  · have := foldBy_min_affine_map t hg (scale_about x0 y0 f) (fun l => l.y)
      y0 f (le_of_lt hf) (fun l => rfl) hy
    rw [show y0 + (y0 - y0) * f = y0 from by ring] at this
    exact this
  · rw [PTree.leaves_mapLeaves, List.length_map]
  · intro i hi hi'
    constructor
    · simp only [PTree.leaves_mapLeaves, List.getElem_map]
      rfl
    · simp only [PTree.leaves_mapLeaves, List.getElem_map]
      rfl
  · intro s hs mx my hmx hmy
    have hgs : s.goodShape = true := hs.goodShape hg
    refine ⟨hs.mapLeaves (scale_about x0 y0 f), ?_, ?_, ?_, ?_⟩
    · exact foldBy_min_affine_map s hgs (scale_about x0 y0 f) (fun l => l.x)
        x0 f (le_of_lt hf) (fun l => rfl) hmx
    · exact foldBy_min_affine_map s hgs (scale_about x0 y0 f) (fun l => l.y)
        y0 f (le_of_lt hf) (fun l => rfl) hmy
    · rw [PTree.leaves_mapLeaves, List.length_map]
    · intro i hi hi'
      constructor
      · simp only [PTree.leaves_mapLeaves, List.getElem_map]
        show (x0 + ((s.leaves[i]).x - x0) * f) - (x0 + (mx - x0) * f) = _
        ring
      · simp only [PTree.leaves_mapLeaves, List.getElem_map]
        show (y0 + ((s.leaves[i]).y - y0) * f) - (y0 + (my - y0) * f) = _
        ring

/-- C1 witness: a nested tree rescaled by 2, with the conclusion
instantiated (the first conjuncts of the theorem's output). -/
theorem rescale_self_similar_witness :
    (0 : ℚ) < 2 ∧
    (PTree.node [.pos { x := 0, y := 0, dx := 2, dy := 2 },
      .node [.pos { x := 2, y := 0, dx := 2, dy := 2 },
             .pos { x := 2, y := 2, dx := 2, dy := 2 }]]).goodShape = true ∧
    ∃ t',
      (PTree.node [.pos { x := 0, y := 0, dx := 2, dy := 2 },
        .node [.pos { x := 2, y := 0, dx := 2, dy := 2 },
               .pos { x := 2, y := 2, dx := 2, dy := 2 }]]).rescale 2 = some t' ∧
      t' = (PTree.node [.pos { x := 0, y := 0, dx := 2, dy := 2 },
        .node [.pos { x := 2, y := 0, dx := 2, dy := 2 },
               .pos { x := 2, y := 2, dx := 2, dy := 2 }]]).mapLeaves
          (scale_about 0 0 2) ∧
      t'.x_min = some 0 ∧ t'.y_min = some 0 := by
  refine ⟨by norm_num, by decide, ?_⟩
  obtain ⟨t', h1, h2, h3, h4, -⟩ :=
    rescale_self_similar
      (PTree.node [.pos { x := 0, y := 0, dx := 2, dy := 2 },
        .node [.pos { x := 2, y := 0, dx := 2, dy := 2 },
               .pos { x := 2, y := 2, dx := 2, dy := 2 }]]) 2 0 0
      (by norm_num) (by decide) (by with_unfolding_all rfl)
      (by with_unfolding_all rfl)
  exact ⟨t', h1, h2, h3, h4⟩

end FigureComp
